import Mathlib

/-!
Verification development for the faceblur tracking core.

The C++ sources are shallowly embedded over an arbitrary linear ordered
field `α`.  Floating point literals from the source (`1e-6f`, `0.01f`,
`DBL_EPSILON`, ...) are taken at their exact decimal / binary values as
elements of `α`.  The two transcendental functions used by the source,
`std::sqrt` and `std::acos`, together with the constant `kPi`, are
abstracted into a record of numeric operations (`NumOps`); no claim in
this development depends on their values, and theorems are stated for
every choice of these operations (instantiating to `Real.sqrt`,
`Real.arccos` and `Real.pi` where a claim does depend on them).
-/

namespace FaceBlur

section ListMat

variable {α : Type*} [LinearOrderedField α]

/-- Entry of a row-major list matrix, defaulting to `0` when out of range. -/
def getM (m : List (List α)) (r c : ℕ) : α :=
  (m.getD r []).getD c 0

/-- Write an entry of a row-major list matrix (no-op out of range). -/
def setM (m : List (List α)) (r c : ℕ) (v : α) : List (List α) :=
  m.set r ((m.getD r []).set c v)

/-- Entry of a boolean list matrix, defaulting to `false` out of range. -/
def getB (m : List (List Bool)) (r c : ℕ) : Bool :=
  (m.getD r []).getD c false

/-- Write an entry of a boolean list matrix (no-op out of range). -/
def setB (m : List (List Bool)) (r c : ℕ) (v : Bool) : List (List Bool) :=
  m.set r ((m.getD r []).set c v)

/-- An all-`false` boolean matrix with the given dimensions. -/
def falseM (nRows nCols : ℕ) : List (List Bool) :=
  List.replicate nRows (List.replicate nCols false)

/-- Read a covered flag from a cover vector, defaulting to `false`. -/
def getCov (l : List Bool) (i : ℕ) : Bool :=
  l.getD i false

end ListMat

section Hungarian

/- Model of `src/cpp/src/hungarian.cpp` (Munkres assignment).  The C++
stores the cost matrix column-major in a flat array; we keep a row-major
list of rows, which is entrywise identical at every `(row, col)`.  The
unbounded `while` loops of the source are given explicit fuel; fuel
exhaustion (unreachable for the terminating source algorithm) returns the
current partial result. -/

variable {α : Type*} [LinearOrderedField α]

/-- The binary64 machine epsilon `DBL_EPSILON = 2^-52` used by the source
as its zero-detection threshold. -/
def dblEpsilon : α := 1 / 2 ^ 52

/-- The binary64 largest finite value `DBL_MAX = (2^53 - 1) * 2^971` used
by the source as the initial accumulator of step 5's minimum search. -/
def dblMax : α := (2 ^ 53 - 1) * 2 ^ 971

/-- Working state of the Munkres algorithm: mutated distance matrix, star
and prime marks, and row/column covers. -/
structure MunkState (α : Type*) where
  dist : List (List α)
  star : List (List Bool)
  prim : List (List Bool)
  covRows : List Bool
  covCols : List Bool

/-- Minimum of a row, scanned like the source (first element, then the
rest); `0` for an empty row (unreached). -/
def rowMinVal (row : List α) : α :=
  match row with
  | [] => 0
  | x :: xs => xs.foldl min x

/-- Row reduction: subtract each row's minimum from the row. -/
def rowReduce (m : List (List α)) : List (List α) :=
  m.map (fun row => row.map (fun v => v - rowMinVal row))

/-- The values of column `c`. -/
def colVals (m : List (List α)) (c : ℕ) : List α :=
  m.map (fun row => row.getD c 0)

/-- Minimum of column `c`, scanned like the source. -/
def colMinVal (m : List (List α)) (c : ℕ) : α :=
  rowMinVal (colVals m c)

/-- Column reduction: subtract each column's minimum from the column. -/
def colReduce (m : List (List α)) (nCols : ℕ) : List (List α) :=
  m.map (fun row => (List.range nCols).map (fun c => row.getD c 0 - colMinVal m c))

/-- Preliminary starring for the `rows ≤ cols` branch: per row, star the
first zero in an uncovered column and cover that column. -/
def starZerosRows (m : List (List α)) (nRows nCols : ℕ) :
    List (List Bool) × List Bool :=
  (List.range nRows).foldl
    (fun acc r =>
      match (List.range nCols).find?
          (fun c => decide (|getM m r c| < dblEpsilon) && !(getCov acc.2 c)) with
      | some c => (setB acc.1 r c true, acc.2.set c true)
      | none => acc)
    (falseM nRows nCols, List.replicate nCols false)

/-- Preliminary starring for the `rows > cols` branch: per column, star the
first zero in an uncovered row, covering both the row and the column.  The
row covers are reset by the caller, as in the source. -/
def starZerosCols (m : List (List α)) (nRows nCols : ℕ) :
    List (List Bool) × List Bool × List Bool :=
  (List.range nCols).foldl
    (fun acc c =>
      match (List.range nRows).find?
          (fun r => decide (|getM m r c| < dblEpsilon) && !(getCov acc.2.2 r)) with
      | some r => (setB acc.1 r c true, acc.2.1.set c true, acc.2.2.set r true)
      | none => acc)
    (falseM nRows nCols, List.replicate nCols false, List.replicate nRows false)

/-- First starred column of a row, if any. -/
def findStarColInRow (star : List (List Bool)) (r nCols : ℕ) : Option ℕ :=
  (List.range nCols).find? (fun c => getB star r c)

/-- First starred row of a column, if any. -/
def findStarRowInCol (star : List (List Bool)) (c nRows : ℕ) : Option ℕ :=
  (List.range nRows).find? (fun r => getB star r c)

/-- First primed column of a row, if any. -/
def findPrimeColInRow (prim : List (List Bool)) (r nCols : ℕ) : Option ℕ :=
  (List.range nCols).find? (fun c => getB prim r c)

/-- First uncovered row holding a zero of column `c`. -/
def findZeroRow (st : MunkState α) (c nRows : ℕ) : Option ℕ :=
  (List.range nRows).find?
    (fun r => !(getCov st.covRows r) && decide (|getM st.dist r c| < dblEpsilon))

/-- Result of one sweep of step 3's column scan. -/
inductive SweepRes (α : Type*) where
  | found (st : MunkState α) (r c : ℕ)
  | done (st : MunkState α) (changed : Bool)

/-- One sweep over the columns, as in the source's `step3` body: prime
uncovered zeros; when the primed row holds a star, cover the row and
uncover the star's column and keep scanning; when it does not, stop and
hand `(row, col)` to step 4. -/
def sweepStep3 (nRows nCols : ℕ) :
    List ℕ → MunkState α → Bool → SweepRes α
  | [], st, changed => .done st changed
  | c :: cs, st, changed =>
    if getCov st.covCols c then sweepStep3 nRows nCols cs st changed
    else
      match findZeroRow st c nRows with
      | none => sweepStep3 nRows nCols cs st changed
      | some r =>
        let st1 : MunkState α := { st with prim := setB st.prim r c true }
        match findStarColInRow st1.star r nCols with
        | some sc =>
          sweepStep3 nRows nCols cs
            { st1 with covRows := st1.covRows.set r true,
                       covCols := st1.covCols.set sc false } true
        | none => .found st1 r c

/-- Outcome of step 3: either an uncovered zero with no star in its row
(go to step 4) or no uncovered zeros remain (go to step 5). -/
inductive Step3Out (α : Type*) where
  | toStep4 (st : MunkState α) (r c : ℕ)
  | toStep5 (st : MunkState α)

/-- Step 3's `while (zeros_found)` loop, fueled. -/
def step3Loop (nRows nCols : ℕ) : ℕ → MunkState α → Step3Out α
  | 0, st => .toStep5 st
  | fuel + 1, st =>
    match sweepStep3 nRows nCols (List.range nCols) st false with
    | .found st1 r c => .toStep4 st1 r c
    | .done st1 true => step3Loop nRows nCols fuel st1
    | .done st1 false => .toStep5 st1

/-- The star/unstar walk of step 4 along the alternating path.  `S` is the
original star matrix (the source consults `star_matrix` throughout), `N`
the new star matrix being built.  On fuel exhaustion or a missing prime
(both unreachable in the source) the old star matrix is kept. -/
def augmentPath (S prim : List (List Bool)) (nRows nCols : ℕ) :
    ℕ → List (List Bool) → ℕ → List (List Bool)
  | 0, _, _ => S
  | fuel + 1, N, col =>
    match findStarRowInCol S col nRows with
    | none => N
    | some r =>
      match findPrimeColInRow prim r nCols with
      | none => S
      | some pc => augmentPath S prim nRows nCols fuel (setB (setB N r col false) r pc true) pc

/-- Step 4: star the primed zero, walk the alternating path, then reset
the primes and the row covers. -/
def step4Apply (st : MunkState α) (r c nRows nCols : ℕ) : MunkState α :=
  { st with
    star := augmentPath st.star st.prim nRows nCols (nRows + nCols + 2) (setB st.star r c true) c,
    prim := falseM nRows nCols,
    covRows := List.replicate nRows false }

/-- Step 2a: cover every column containing a star (covers are only added). -/
def coverStarCols (st : MunkState α) (nRows nCols : ℕ) : MunkState α :=
  { st with
    covCols := (List.range nCols).map
      (fun c => getCov st.covCols c || (findStarRowInCol st.star c nRows).isSome) }

/-- Step 5's minimum over uncovered entries, accumulated from `DBL_MAX`. -/
def step5Min (st : MunkState α) (nRows nCols : ℕ) : α :=
  ((List.range nRows).filter (fun r => !(getCov st.covRows r))).foldl
    (fun acc r =>
      ((List.range nCols).filter (fun c => !(getCov st.covCols c))).foldl
        (fun acc2 c => min acc2 (getM st.dist r c)) acc)
    dblMax

/-- Step 5: add the minimum to covered rows, subtract it from uncovered
columns. -/
def step5Apply (st : MunkState α) (nRows nCols : ℕ) : MunkState α :=
  let mv := step5Min st nRows nCols
  let d1 := (List.range nRows).map
    (fun r =>
      let row := st.dist.getD r []
      if getCov st.covRows r then row.map (fun v => v + mv) else row)
  let d2 := d1.map
    (fun row => (List.range nCols).map
      (fun c => if getCov st.covCols c then row.getD c 0 else row.getD c 0 - mv))
  { st with dist := d2 }

/-- The main loop alternating the step 2b cover test with steps 3/4/5.
The boolean phase flag is `true` at the step 2b test and `false` at
step 3, mirroring the source's control flow (step 5 returns directly to
step 3 without re-testing covers). -/
def munkresLoop (nRows nCols minDim : ℕ) : ℕ → Bool → MunkState α → MunkState α
  | 0, _, st => st
  | fuel + 1, true, st =>
    if st.covCols.count true = minDim then st
    else munkresLoop nRows nCols minDim fuel false st
  | fuel + 1, false, st =>
    match step3Loop nRows nCols (nRows + 1) st with
    | .toStep4 st1 r c =>
      munkresLoop nRows nCols minDim fuel true (coverStarCols (step4Apply st1 r c nRows nCols) nRows nCols)
    | .toStep5 st1 => munkresLoop nRows nCols minDim fuel false (step5Apply st1 nRows nCols)

/-- Build the assignment vector: each row's first starred column, or `-1`. -/
def buildAssignmentVector (star : List (List Bool)) (nRows nCols : ℕ) : List ℤ :=
  (List.range nRows).map
    (fun r =>
      match findStarColInRow star r nCols with
      | some c => (c : ℤ)
      | none => -1)

/-- Total of the matrix entries selected by an assignment (the source
computes this on its mutated distance matrix). -/
def computeAssignmentCost (dist : List (List α)) (assign : List ℤ) : α :=
  ((List.range assign.length).map
    (fun r =>
      let c := assign.getD r (-1)
      if 0 ≤ c then getM dist r c.toNat else 0)).sum

/-- Shared fuel bound for the main loop (ample for the terminating
source algorithm on a matrix of the given dimensions). -/
def munkresFuel (nRows nCols : ℕ) : ℕ := (nRows + nCols + 2) ^ 3

/-- The `assignmentOptimal` body: preliminary reduction and starring,
then the fueled main loop; returns the final state. -/
def assignmentOptimal (mat : List (List α)) (nRows nCols : ℕ) : MunkState α :=
  let st0 : MunkState α :=
    if nRows ≤ nCols then
      let d := rowReduce mat
      let sc := starZerosRows d nRows nCols
      ⟨d, sc.1, falseM nRows nCols, List.replicate nRows false, sc.2⟩
    else
      let d := colReduce mat nCols
      let sc := starZerosCols d nRows nCols
      ⟨d, sc.1, falseM nRows nCols, List.replicate nRows false, sc.2.1⟩
  munkresLoop nRows nCols (min nRows nCols) (munkresFuel nRows nCols) true st0

/-- `HungarianAlgorithm::solve`: returns the assignment vector together
with the cost the source reports (summed over its reduced matrix). -/
def hungarianSolve (mat : List (List α)) : List ℤ × α :=
  if mat.length = 0 then ([], 0)
  else
    let nCols := mat.headI.length
    if nCols = 0 then (List.replicate mat.length (-1), 0)
    else
      let stF := assignmentOptimal mat mat.length nCols
      let a := buildAssignmentVector stF.star mat.length nCols
      (a, computeAssignmentCost stF.dist a)

/-- Total cost of an assignment against the original cost matrix (used to
state optimality claims). -/
def totalCost (mat : List (List α)) (assign : List ℤ) : α :=
  computeAssignmentCost mat assign

end Hungarian

section Geometry

variable {α : Type*} [LinearOrderedField α]

/-- The numeric operations the source takes from the C math library, kept
abstract: a square root, an arc cosine, and the value of the source's
`kPi` constant.  No theorem below depends on their values unless it
instantiates them explicitly. -/
structure NumOps (α : Type*) where
  sqrtF : α → α
  acosF : α → α
  piF : α

/-- Axis-aligned bounding box `{x1, y1, x2, y2}`. -/
structure BBoxT (α : Type*) where
  x1 : α
  y1 : α
  x2 : α
  y2 : α
deriving DecidableEq

/-- Box width `x2 - x1`. -/
def BBoxT.width (b : BBoxT α) : α := b.x2 - b.x1

/-- Box height `y2 - y1`. -/
def BBoxT.height (b : BBoxT α) : α := b.y2 - b.y1

/-- Box center x. -/
def BBoxT.centerX (b : BBoxT α) : α := (b.x1 + b.x2) / 2

/-- Box center y. -/
def BBoxT.centerY (b : BBoxT α) : α := (b.y1 + b.y2) / 2

/-- Box area `width * height`. -/
def BBoxT.area (b : BBoxT α) : α := b.width * b.height

/-- Intersection-over-union of two boxes, as in `BBox::iou`. -/
def BBoxT.iou (b o : BBoxT α) : α :=
  let ix1 := max b.x1 o.x1
  let iy1 := max b.y1 o.y1
  let ix2 := min b.x2 o.x2
  let iy2 := min b.y2 o.y2
  if ix2 < ix1 ∨ iy2 < iy1 then 0
  else
    let inter := (ix2 - ix1) * (iy2 - iy1)
    let uni := b.area + o.area - inter
    if 0 < uni then inter / uni else 0

/-- A detection: bbox, score, and an optional ReID embedding (modelled as
a list) with a validity flag and a quality in `[0,1]`. -/
structure DetectionT (α : Type*) where
  bbox : BBoxT α
  score : α
  reid : List α
  hasReid : Bool
  reidQuality : α
deriving DecidableEq

/-- The detection value used when an index lookup is (unreachably) out of
range. -/
def defaultDetection : DetectionT α := ⟨⟨0, 0, 0, 0⟩, 0, [], false, 0⟩

/-- A Kalman measurement `(x, y, s, r)`. -/
structure MeasT (α : Type*) where
  mx : α
  my : α
  ms : α
  mr : α
deriving DecidableEq

/-- A 3x3 warp matrix. -/
structure Mat3T (α : Type*) where
  m00 : α
  m01 : α
  m02 : α
  m10 : α
  m11 : α
  m12 : α
  m20 : α
  m21 : α
  m22 : α
deriving DecidableEq

/-- `warp_point_px`: apply the 3x3 warp to a pixel point.  When the
denominator is smaller than `1e-6` in absolute value the numerators are
returned undivided. -/
def warpPointPx (M : Mat3T α) (x y : α) : α × α :=
  let nx := M.m00 * x + M.m01 * y + M.m02
  let ny := M.m10 * x + M.m11 * y + M.m12
  let d := M.m20 * x + M.m21 * y + M.m22
  if |d| < 1 / 10 ^ 6 then (nx, ny) else (nx / d, ny / d)

/-- `warp_bbox_norm`: warp a normalized bbox through `M` in pixel space,
re-axis-align via min/max over the four corners, and renormalize. -/
def warpBBoxNorm (b : BBoxT α) (M : Mat3T α) (w h : ℤ) : BBoxT α :=
  if w ≤ 0 ∨ h ≤ 0 then b
  else
    let wf : α := (w : α)
    let hf : α := (h : α)
    let p0 := warpPointPx M (b.x1 * wf) (b.y1 * hf)
    let p1 := warpPointPx M (b.x2 * wf) (b.y1 * hf)
    let p2 := warpPointPx M (b.x2 * wf) (b.y2 * hf)
    let p3 := warpPointPx M (b.x1 * wf) (b.y2 * hf)
    let minx := min (min (min p0.1 p1.1) p2.1) p3.1
    let maxx := max (max (max p0.1 p1.1) p2.1) p3.1
    let miny := min (min (min p0.2 p1.2) p2.2) p3.2
    let maxy := max (max (max p0.2 p1.2) p2.2) p3.2
    let xs := if maxx < minx then (maxx, minx) else (minx, maxx)
    let ys := if maxy < miny then (maxy, miny) else (miny, maxy)
    ⟨xs.1 * (1 / wf), ys.1 * (1 / hf), xs.2 * (1 / wf), ys.2 * (1 / hf)⟩

/-- `bboxToMeasurement`: center, area, and aspect ratio with the `1e-6`
denominator clamp. -/
def bboxToMeasurement (b : BBoxT α) : MeasT α :=
  ⟨b.centerX, b.centerY, b.area, b.width / max b.height (1 / 10 ^ 6)⟩

/-- `measurementToBbox`: back from `(x, y, s, r)` with `1e-6` minima. -/
def measurementToBbox (no : NumOps α) (z : MeasT α) : BBoxT α :=
  let s := max z.ms (1 / 10 ^ 6)
  let r := max z.mr (1 / 10 ^ 6)
  let w := no.sqrtF (max 0 (s * r))
  let h := if 0 < w then s / w else 0
  ⟨z.mx - w / 2, z.my - h / 2, z.mx + w / 2, z.my + h / 2⟩

/-- `measurementToXYWH`: center and size of a measurement. -/
def measurementToXYWH (no : NumOps α) (z : MeasT α) : α × α × α × α :=
  let s := max z.ms (1 / 10 ^ 6)
  let r := max z.mr (1 / 10 ^ 6)
  let w := no.sqrtF (max 0 (s * r))
  let h := if 0 < w then s / w else 0
  (z.mx, z.my, w, h)

/-- `xywhToMeasurement` with `1e-6` minima on width and height. -/
def xywhToMeasurement (x y w h : α) : MeasT α :=
  let w1 := max w (1 / 10 ^ 6)
  let h1 := max h (1 / 10 ^ 6)
  ⟨x, y, w1 * h1, w1 / h1⟩

/-- `speedDirection`: the `(dy, dx)` direction between two box centers,
scaled by the `1e-6`-regularized norm. -/
def speedDirectionT (no : NumOps α) (src dst : BBoxT α) : α × α :=
  let cx1 := (src.x1 + src.x2) / 2
  let cy1 := (src.y1 + src.y2) / 2
  let cx2 := (dst.x1 + dst.x2) / 2
  let cy2 := (dst.y1 + dst.y2) / 2
  let dy := cy2 - cy1
  let dx := cx2 - cx1
  let nrm := no.sqrtF (dx * dx + dy * dy) + 1 / 10 ^ 6
  (dy / nrm, dx / nrm)

/-- `l2_normalize`: scale by the inverse of the `1e-12`-regularized norm. -/
def l2normalize (no : NumOps α) (v : List α) : List α :=
  let ss := (v.map (fun x => x * x)).sum
  let inv := 1 / (no.sqrtF ss + 1 / 10 ^ 12)
  v.map (fun x => x * inv)

/-- `cosine_sim`: dot product clamped to `[-1, 1]`. -/
def clampT (v lo hi : α) : α := max lo (min hi v)

/-- Cosine similarity of two (expected unit) vectors, clamped. -/
def cosineSim (a b : List α) : α :=
  clampT ((List.zipWith (fun x y => x * y) a b).sum) (-1) 1

end Geometry

section KalmanMat

variable {α : Type*} [LinearOrderedField α]

/-- Matrix sum (entrywise, dimensions assumed equal). -/
def matAdd (a b : List (List α)) : List (List α) :=
  List.zipWith (List.zipWith (fun x y => x + y)) a b

/-- Matrix difference (entrywise, dimensions assumed equal). -/
def matSub (a b : List (List α)) : List (List α) :=
  List.zipWith (List.zipWith (fun x y => x - y)) a b

/-- Matrix product, inner dimension taken from the left factor's rows. -/
def matMul (a b : List (List α)) : List (List α) :=
  let cols := b.headI.length
  a.map (fun row =>
    (List.range cols).map (fun j =>
      ((List.range row.length).map (fun k => row.getD k 0 * getM b k j)).sum))

/-- Matrix transpose. -/
def matTranspose (m : List (List α)) : List (List α) :=
  (List.range m.headI.length).map (fun j => m.map (fun row => row.getD j 0))

/-- Pivot row selection of the Gauss-Jordan inverse: the first row at or
below `col` with the largest absolute value in column `col`. -/
def pivotRowIdx (aug : List (List α)) (col n : ℕ) : ℕ :=
  ((List.range n).drop (col + 1)).foldl
    (fun acc r => if |getM aug acc col| < |getM aug r col| then r else acc) col

/-- Swap two rows of a list matrix. -/
def swapRows (m : List (List α)) (i j : ℕ) : List (List α) :=
  let ri := m.getD i []
  let rj := m.getD j []
  (m.set i rj).set j ri

/-- `Matrix::inverse`: Gauss-Jordan elimination with partial pivoting on
the augmented matrix; a pivot below `1e-10` in absolute value is replaced
by `1e-6`. -/
def gjInverse (m : List (List α)) (n : ℕ) : List (List α) :=
  let aug0 := (List.range n).map (fun i =>
    (List.range (2 * n)).map (fun j =>
      if j < n then getM m i j else if j = n + i then 1 else 0))
  let augF := (List.range n).foldl
    (fun aug col =>
      let maxRow := pivotRowIdx aug col n
      let aug1 := if maxRow ≠ col then swapRows aug col maxRow else aug
      let aug2 := if |getM aug1 col col| < 1 / 10 ^ 10 then setM aug1 col col (1 / 10 ^ 6) else aug1
      let p := getM aug2 col col
      let aug3 := aug2.set col ((aug2.getD col []).map (fun v => v / p))
      (List.range n).foldl
        (fun augx row =>
          if row = col then augx
          else
            let factor := getM augx row col
            augx.set row (List.zipWith (fun a b => a - factor * b) (augx.getD row []) (augx.getD col [])))
        aug3)
    aug0
  (List.range n).map (fun i => (List.range n).map (fun j => getM augF i (n + j)))

/-- The 7x7 identity. -/
def id7 : List (List α) :=
  [[1, 0, 0, 0, 0, 0, 0],
   [0, 1, 0, 0, 0, 0, 0],
   [0, 0, 1, 0, 0, 0, 0],
   [0, 0, 0, 1, 0, 0, 0],
   [0, 0, 0, 0, 1, 0, 0],
   [0, 0, 0, 0, 0, 1, 0],
   [0, 0, 0, 0, 0, 0, 1]]

/-- The constant-velocity transition matrix `F`. -/
def kfF : List (List α) :=
  [[1, 0, 0, 0, 1, 0, 0],
   [0, 1, 0, 0, 0, 1, 0],
   [0, 0, 1, 0, 0, 0, 1],
   [0, 0, 0, 1, 0, 0, 0],
   [0, 0, 0, 0, 1, 0, 0],
   [0, 0, 0, 0, 0, 1, 0],
   [0, 0, 0, 0, 0, 0, 1]]

/-- The measurement matrix `H` extracting `(x, y, s, r)`. -/
def kfH : List (List α) :=
  [[1, 0, 0, 0, 0, 0, 0],
   [0, 1, 0, 0, 0, 0, 0],
   [0, 0, 1, 0, 0, 0, 0],
   [0, 0, 0, 1, 0, 0, 0]]

/-- The process noise `Q`: velocities scaled by `0.01`, with the last
diagonal entry scaled by `0.01` twice as in the source. -/
def kfQ : List (List α) :=
  [[1, 0, 0, 0, 0, 0, 0],
   [0, 1, 0, 0, 0, 0, 0],
   [0, 0, 1, 0, 0, 0, 0],
   [0, 0, 0, 1, 0, 0, 0],
   [0, 0, 0, 0, 1 / 100, 0, 0],
   [0, 0, 0, 0, 0, 1 / 100, 0],
   [0, 0, 0, 0, 0, 0, 1 / 10000]]

/-- The measurement noise `R`: scale and ratio components scaled by 10. -/
def kfR : List (List α) :=
  [[1, 0, 0, 0],
   [0, 1, 0, 0],
   [0, 0, 10, 0],
   [0, 0, 0, 10]]

/-- The initial covariance `P`: velocity block inflated by 1000, then the
whole diagonal by 10. -/
def kfP0 : List (List α) :=
  [[10, 0, 0, 0, 0, 0, 0],
   [0, 10, 0, 0, 0, 0, 0],
   [0, 0, 10, 0, 0, 0, 0],
   [0, 0, 0, 10, 0, 0, 0],
   [0, 0, 0, 0, 10000, 0, 0],
   [0, 0, 0, 0, 0, 10000, 0],
   [0, 0, 0, 0, 0, 0, 10000]]

/-- `predictKF`: clamp `vs` when the predicted area would go nonpositive,
then advance the state and covariance. -/
def predictKFm (st : List (List α) × List (List α)) : List (List α) × List (List α) :=
  let x := if getM st.1 6 0 + getM st.1 2 0 ≤ 0 then setM st.1 6 0 0 else st.1
  (matMul kfF x, matAdd (matMul (matMul kfF st.2) (matTranspose kfF)) kfQ)

/-- `updateKF`: the standard Kalman correction with the source's
Gauss-Jordan inverse for `S`. -/
def updateKFm (st : List (List α) × List (List α)) (z : MeasT α) :
    List (List α) × List (List α) :=
  let zc : List (List α) := [[z.mx], [z.my], [z.ms], [z.mr]]
  let y := matSub zc (matMul kfH st.1)
  let s := matAdd (matMul (matMul kfH st.2) (matTranspose kfH)) kfR
  let k := matMul (matMul st.2 (matTranspose kfH)) (gjInverse s 4)
  (matAdd st.1 (matMul k y), matMul (matSub id7 (matMul k kfH)) st.2)

end KalmanMat

section Tracker

variable {α : Type*} [LinearOrderedField α]

/-- Lookup in an integer-keyed association list (the `std::map` of the
source). -/
def mapFind {β : Type*} (m : List (ℤ × β)) (k : ℤ) : Option β :=
  (m.find? (fun p => decide (p.1 = k))).map (fun p => p.2)

/-- Insert-or-replace in an integer-keyed association list. -/
def mapInsert {β : Type*} (m : List (ℤ × β)) (k : ℤ) (v : β) : List (ℤ × β) :=
  if (m.find? (fun p => decide (p.1 = k))).isSome then
    m.map (fun p => if p.1 = k then (k, v) else p)
  else m ++ [(k, v)]

/-- Value at the largest key (the `rbegin()` of the source's map). -/
def mapMaxVal {β : Type*} (m : List (ℤ × β)) : Option β :=
  (m.foldl
    (fun acc p =>
      match acc with
      | none => some p
      | some q => if q.1 < p.1 then some p else some q)
    none).map (fun p => p.2)

/-- One appearance-bank slot assignment: the source writes
`appearance_bank_[i]`, which appends when `i` is the current size and
replaces otherwise. -/
def bankWrite (bank : List (List α × α)) (i : ℕ) (p : List α × α) : List (List α × α) :=
  if i = bank.length then bank ++ [p] else bank.set i p

/-- Index of the lowest-quality bank entry, scanned like the source
(first index, strict improvement). -/
def worstBankIdx (bank : List (List α × α)) : ℕ :=
  match bank with
  | [] => 0
  | p0 :: rest =>
    (rest.enum.foldl
      (fun acc ip => if ip.2.2 < acc.2 then (ip.1 + 1, ip.2.2) else acc)
      (0, p0.2)).1

/-- Recompute the published appearance as the quality-weighted mean of the
bank, falling back to the first sample when the weight sum vanishes, then
re-normalize. -/
def bankProto (no : NumOps α) (bank : List (List α × α)) : List α :=
  match bank with
  | [] => []
  | p0 :: _ =>
    let wsum := (bank.map (fun p => max 0 p.2)).sum
    let acc := bank.foldl
      (fun acc p => List.zipWith (fun a b => a + max 0 p.2 * b) acc p.1)
      (p0.1.map (fun _ => 0))
    let proto := if wsum ≤ 1 / 10 ^ 9 then p0.1 else acc
    l2normalize no proto

/-- The appearance fields of a tracker. -/
structure BankState (α : Type*) where
  bank : List (List α × α)
  appearance : List α
  hasAppearance : Bool
deriving DecidableEq

/-- The appearance-bank update of `KalmanBoxTracker::update`: gate on
`has_reid` and quality `≥ 0.40`; insert when the bank is not full, else
replace the lowest-quality entry on strict improvement; recompute the
prototype after every write. -/
def bankStep (no : NumOps α) (bs : BankState α) (d : DetectionT α) : BankState α :=
  if d.hasReid then
    let q := max 0 d.reidQuality
    if 2 / 5 ≤ q then
      let insertAt : Option ℕ :=
        if bs.bank.length < 5 then some bs.bank.length
        else
          let wi := worstBankIdx bs.bank
          if (bs.bank.getD wi ([], 0)).2 < q then some wi else none
      match insertAt with
      | some i =>
        let nb := bankWrite bs.bank i (l2normalize no d.reid, q)
        ⟨nb, bankProto no nb, true⟩
      | none =>
        if bs.hasAppearance then bs
        else ⟨[(l2normalize no d.reid, q)], l2normalize no d.reid, true⟩
    else bs
  else bs

/-- The state of one `KalmanBoxTracker`. -/
structure KTrack (α : Type*) where
  trackId : ℤ
  timeSinceUpdate : ℤ
  hits : ℤ
  hitStreak : ℤ
  age : ℤ
  deltaT : ℤ
  x : List (List α)
  P : List (List α)
  lastObservation : Option (DetectionT α)
  observationsByAge : List (ℤ × DetectionT α)
  velocityDir : Option (α × α)
  bankState : BankState α
  oruHistory : List (Option (MeasT α))
  oruObserved : Bool
  oruSavedX : Option (List (List α))
  oruSavedP : Option (List (List α))
  oruSavedAge : Option ℤ
deriving DecidableEq

/-- The constructor `KalmanBoxTracker(det, track_id, delta_t)`. -/
def KTrack.init (no : NumOps α) (det : DetectionT α) (trackId deltaT : ℤ) : KTrack α :=
  let z := bboxToMeasurement det.bbox
  let x0 : List (List α) := [[z.mx], [z.my], [z.ms], [z.mr], [0], [0], [0]]
  let bs : BankState α :=
    if det.hasReid ∧ 2 / 5 ≤ det.reidQuality then
      ⟨[(l2normalize no det.reid, max 0 det.reidQuality)], l2normalize no det.reid, true⟩
    else ⟨[], [], false⟩
  { trackId := trackId
    timeSinceUpdate := 0
    hits := 1
    hitStreak := 1
    age := 0
    deltaT := deltaT
    x := x0
    P := kfP0
    lastObservation := some det
    observationsByAge := [(0, det)]
    velocityDir := none
    bankState := bs
    oruHistory := [some z]
    oruObserved := true
    oruSavedX := some x0
    oruSavedP := some kfP0
    oruSavedAge := some 0 }

/-- Current state as a bbox (`getState`). -/
def KTrack.getState (no : NumOps α) (tr : KTrack α) : BBoxT α :=
  measurementToBbox no ⟨getM tr.x 0 0, getM tr.x 1 0, getM tr.x 2 0, getM tr.x 3 0⟩

/-- The `velocityDir()` accessor: `(0, 0)` when unset; the pair is the
source's `(dy, dx)` convention. -/
def KTrack.velocityDirA (tr : KTrack α) : α × α :=
  tr.velocityDir.getD (0, 0)

/-- `kPreviousObservation(k)`: the observation `k` ages back, or the
first one at most `k` ages back, or the most recent one, or a sentinel
detection with score `-1`. -/
def KTrack.kPrevObs (tr : KTrack α) (k : ℤ) : DetectionT α :=
  let placeholder : DetectionT α := ⟨⟨-1, -1, -1, -1⟩, -1, [], false, 0⟩
  if tr.observationsByAge.isEmpty then placeholder
  else
    match (List.range k.toNat).findSome?
        (fun i => mapFind tr.observationsByAge (tr.age - (k - (i : ℤ)))) with
    | some d => d
    | none => (mapMaxVal tr.observationsByAge).getD placeholder

/-- `predict()`: advance the filter, age the track, reset the hit streak
when the track was not matched, and bump `time_since_update`. -/
def KTrack.predict (tr : KTrack α) : KTrack α :=
  let st := predictKFm (tr.x, tr.P)
  { tr with
    x := st.1
    P := st.2
    age := tr.age + 1
    hitStreak := if 0 < tr.timeSinceUpdate then 0 else tr.hitStreak
    timeSinceUpdate := tr.timeSinceUpdate + 1 }

/-- The indices of the two most recent real observations in the ORU
history, scanning backwards as the source does. -/
def findLastTwo (h : List (Option (MeasT α))) : Option (ℕ × ℕ) :=
  match (h.enum.filterMap (fun p => if p.2.isSome then some p.1 else none)).reverse with
  | i2 :: i1 :: _ => some (i1, i2)
  | _ => none

/-- `maybeRunORU`: when the two most recent real observations are at
least two frames apart, roll back to the saved snapshot, replay one
predict/update step per missing frame against linearly interpolated
virtual measurements, and predict once more. -/
def maybeRunORU (no : NumOps α) (tr : KTrack α) (cur : MeasT α) : KTrack α :=
  match tr.oruSavedX, tr.oruSavedP with
  | some sx, some sP =>
    match findLastTwo tr.oruHistory with
    | some (i1, i2) =>
      if i2 - i1 < 2 then tr
      else
        match tr.oruHistory.getD i1 none with
        | some prevMeas =>
          let g := i2 - i1
          let p1 := measurementToXYWH no prevMeas
          let p2 := measurementToXYWH no cur
          let stepped := ((List.range (g - 1)).map (fun k : ℕ => k + 1)).foldl
            (fun st (k : ℕ) =>
              let al : α := (k : α) / (g : α)
              let xi := p1.1 + al * (p2.1 - p1.1)
              let yi := p1.2.1 + al * (p2.2.1 - p1.2.1)
              let wi := p1.2.2.1 + al * (p2.2.2.1 - p1.2.2.1)
              let hi := p1.2.2.2 + al * (p2.2.2.2 - p1.2.2.2)
              updateKFm (predictKFm st) (xywhToMeasurement xi yi wi hi))
            (sx, sP)
          let fin := predictKFm stepped
          { tr with x := fin.1, P := fin.2 }
        | none => tr
    | none => tr
  | _, _ => tr

/-- `update(det?)`: the no-observation branch records a gap; the
observation branch runs ORU when re-activating, refreshes the velocity
direction, counters, observation stores and appearance bank, applies the
Kalman correction, and snapshots the state for future rollbacks. -/
def KTrack.update (no : NumOps α) (tr : KTrack α) (det : Option (DetectionT α)) : KTrack α :=
  match det with
  | none =>
    { tr with oruHistory := tr.oruHistory ++ [none], oruObserved := false }
  | some d =>
    let z := bboxToMeasurement d.bbox
    let tr1 := { tr with oruHistory := tr.oruHistory ++ [some z] }
    let tr2 := if tr1.oruObserved then tr1 else maybeRunORU no tr1 z
    let tr3 :=
      match tr2.lastObservation with
      | some lo =>
        if 0 ≤ lo.score then
          let prev := ((List.range tr2.deltaT.toNat).findSome?
            (fun i => mapFind tr2.observationsByAge (tr2.age - (tr2.deltaT - (i : ℤ))))).getD lo
          { tr2 with velocityDir := some (speedDirectionT no prev.bbox d.bbox) }
        else tr2
      | none => tr2
    let tr4 :=
      { tr3 with
        timeSinceUpdate := 0
        hits := tr3.hits + 1
        hitStreak := tr3.hitStreak + 1
        lastObservation := some d
        observationsByAge := mapInsert tr3.observationsByAge tr3.age d }
    let tr5 := { tr4 with bankState := bankStep no tr4.bankState d }
    let st := updateKFm (tr5.x, tr5.P) z
    { tr5 with
      x := st.1
      P := st.2
      oruSavedX := some st.1
      oruSavedP := some st.2
      oruSavedAge := some tr5.age
      oruObserved := true }

/-- `applyWarp(warp, W, H)`: a no-op for nonpositive frame dimensions;
otherwise rewrite the state bbox, velocities and scale velocity through
the warp and transport every stored observation, the ORU history and the
ORU snapshot, clearing the cached velocity direction. -/
def KTrack.applyWarp (no : NumOps α) (tr : KTrack α) (M : Mat3T α) (w h : ℤ) : KTrack α :=
  if w ≤ 0 ∨ h ≤ 0 then tr
  else
    let cur := KTrack.getState no tr
    let warped := warpBBoxNorm cur M w h
    let z := bboxToMeasurement warped
    let x1 := setM (setM (setM (setM tr.x 0 0 z.mx) 1 0 z.my) 2 0 z.ms) 3 0 z.mr
    let vxPx := getM tr.x 4 0 * (w : α)
    let vyPx := getM tr.x 5 0 * (h : α)
    let nvx := (M.m00 * vxPx + M.m01 * vyPx) / (w : α)
    let nvy := (M.m10 * vxPx + M.m11 * vyPx) / (h : α)
    let x2 := setM (setM x1 4 0 nvx) 5 0 nvy
    let detA := M.m00 * M.m11 - M.m01 * M.m10
    let x3 := if 0 < detA then setM x2 6 0 (getM x2 6 0 * detA) else x2
    let lastObs :=
      match tr.lastObservation with
      | some lo =>
        if 0 ≤ lo.score then some { lo with bbox := warpBBoxNorm lo.bbox M w h } else some lo
      | none => none
    let obsByAge := tr.observationsByAge.map
      (fun p =>
        if 0 ≤ p.2.score then (p.1, { p.2 with bbox := warpBBoxNorm p.2.bbox M w h }) else p)
    let hist := tr.oruHistory.map
      (fun o =>
        match o with
        | none => none
        | some m => some (bboxToMeasurement (warpBBoxNorm (measurementToBbox no m) M w h)))
    let savedX :=
      match tr.oruSavedX with
      | none => none
      | some sx =>
        let saved : MeasT α := ⟨getM sx 0 0, getM sx 1 0, getM sx 2 0, getM sx 3 0⟩
        let zs := bboxToMeasurement (warpBBoxNorm (measurementToBbox no saved) M w h)
        some (setM (setM (setM (setM sx 0 0 zs.mx) 1 0 zs.my) 2 0 zs.ms) 3 0 zs.mr)
    { tr with
      x := x3
      lastObservation := lastObs
      observationsByAge := obsByAge
      oruHistory := hist
      oruSavedX := savedX
      velocityDir := none }

end Tracker

section Engine

variable {α : Type*} [LinearOrderedField α]

/-- Engine configuration (`OCSort` constructor arguments). -/
structure OCParams (α : Type*) where
  iouThresh : α
  maxAge : ℤ
  minHits : ℤ
  deltaT : ℤ
  inertia : α
  useReid : Bool
  reidWeight : α
  reidCosThresh : α
deriving DecidableEq

/-- Engine state: tracker pool, frame counter, next id, and the saved
appearances of retired tracks. -/
structure OCState (α : Type*) where
  trackers : List (KTrack α)
  frameCount : ℤ
  nextId : ℤ
  finishedAppearances : List (ℤ × List α)
deriving DecidableEq

/-- What the engine emits per confirmed track (`TrackResult`). -/
structure TrackResultT (α : Type*) where
  bbox : BBoxT α
  confidence : α
deriving DecidableEq

/-- The OCM angle cost: cosine between the stored `(dy, dx)` velocity
direction and the observation direction, passed through `acos` and the
`(pi/2 - |angle|) / pi` shaping, weighted by inertia and the detection
score. -/
def ocmAngleCost (no : NumOps α) (inertiaW : α) (vdir dir : α × α) (score : α) : α :=
  let cosv := clampT (vdir.2 * dir.2 + vdir.1 * dir.1) (-1) 1
  let angle := no.acosF cosv
  let diff := (no.piF / 2 - |angle|) / no.piF
  diff * inertiaW * score

/-- Per-pair combined association score of the primary pass: IoU plus the
OCM term (when the track has a valid previous observation) plus the
appearance bonus, hard-gated to `-1e6` below the IoU threshold. -/
def primaryPairScore (no : NumOps α) (p : OCParams α) (d : DetectionT α) (tr : KTrack α)
    (predBBox : BBoxT α) : α :=
  let iou := d.bbox.iou predBBox
  let prevObs := tr.kPrevObs p.deltaT
  let dir := speedDirectionT no prevObs.bbox d.bbox
  let angleCost :=
    if 0 ≤ prevObs.score then ocmAngleCost no p.inertia tr.velocityDirA dir d.score else 0
  let combined := iou + angleCost
  let reidBonus :=
    if p.iouThresh ≤ iou ∧ p.useReid ∧ d.hasReid ∧ tr.bankState.hasAppearance then
      let sim := cosineSim d.reid tr.bankState.appearance
      if p.reidCosThresh ≤ sim then p.reidWeight * ((sim + 1) / 2) else 0
    else 0
  if p.iouThresh ≤ iou then combined + reidBonus else -(10 ^ 6)

/-- `OCSort::associate`: primary association.  Returns matched
`(detection, tracker)` index pairs and the unmatched index lists. -/
def associate (no : NumOps α) (p : OCParams α) (trackers : List (KTrack α))
    (dets : List (DetectionT α)) : List (ℕ × ℕ) × List ℕ × List ℕ :=
  if trackers.isEmpty then ([], List.range dets.length, [])
  else if dets.isEmpty then ([], [], List.range trackers.length)
  else
    let nD := dets.length
    let nT := trackers.length
    let preds := trackers.map (KTrack.getState no)
    let iouM : List (List α) :=
      dets.map (fun d => preds.map (fun pb => d.bbox.iou pb))
    let scoreM : List (List α) :=
      (List.range nD).map (fun dIdx =>
        (List.range nT).map (fun tIdx =>
          match dets.get? dIdx, trackers.get? tIdx with
          | some d, some tr => primaryPairScore no p d tr (preds.getD tIdx ⟨0, 0, 0, 0⟩)
          | _, _ => 0))
    let maxCombined : Option α :=
      (List.range nD).foldl
        (fun acc dIdx =>
          (List.range nT).foldl
            (fun acc2 tIdx =>
              if p.iouThresh ≤ getM iouM dIdx tIdx then
                match acc2 with
                | none => some (getM scoreM dIdx tIdx)
                | some m => some (max m (getM scoreM dIdx tIdx))
              else acc2)
            acc)
        none
    let hungarianAssign : List ℤ :=
      let shift := maxCombined.getD 0
      (hungarianSolve
        ((List.range nD).map (fun dIdx =>
          (List.range nT).map (fun tIdx => shift - getM scoreM dIdx tIdx)))).1
    let assignment : List ℤ :=
      if !p.useReid then
        let rowOk := (List.range nD).all (fun dIdx =>
          ((List.range nT).filter (fun tIdx => decide (p.iouThresh < getM iouM dIdx tIdx))).length ≤ 1)
        let colOk := (List.range nT).all (fun tIdx =>
          ((List.range nD).filter (fun dIdx => decide (p.iouThresh < getM iouM dIdx tIdx))).length ≤ 1)
        if rowOk && colOk then
          (List.range nD).map (fun dIdx =>
            match (List.range nT).find? (fun tIdx => decide (p.iouThresh < getM iouM dIdx tIdx)) with
            | some t => (t : ℤ)
            | none => -1)
        else hungarianAssign
      else hungarianAssign
    let matched := (List.range nD).filterMap (fun dIdx =>
      let t := assignment.getD dIdx (-1)
      if 0 ≤ t ∧ p.iouThresh ≤ getM iouM dIdx t.toNat then some (dIdx, t.toNat) else none)
    let umD := (List.range nD).filter
      (fun dIdx => (matched.find? (fun pr => decide (pr.1 = dIdx))).isNone)
    let umT := (List.range nT).filter
      (fun tIdx => (matched.find? (fun pr => decide (pr.2 = tIdx))).isNone)
    (matched, umD, umT)

/-- `OCSort::associateOCR`: secondary association of still-unmatched
detections against still-unmatched trackers using the last observation's
bbox, blended with appearance when allowed; returns the OCR matches and
the reduced unmatched lists. -/
def associateOCR (p : OCParams α) (trackers : List (KTrack α))
    (dets : List (DetectionT α)) (umD umT : List ℕ) :
    List (ℕ × ℕ) × List ℕ × List ℕ :=
  if umD.isEmpty || umT.isEmpty then ([], umD, umT)
  else if dets.isEmpty then ([], umD, umT)
  else
    let nD := umD.length
    let nT := umT.length
    let iouM : List (List α) :=
      (List.range nD).map (fun di =>
        (List.range nT).map (fun ti =>
          match trackers.get? (umT.getD ti 0) with
          | some tr =>
            match tr.lastObservation with
            | some lo =>
              if 0 ≤ lo.score then (dets.getD (umD.getD di 0) defaultDetection).bbox.iou lo.bbox
              else 0
            | none => 0
          | none => 0))
    let simM : List (List α) :=
      (List.range nD).map (fun di =>
        (List.range nT).map (fun ti =>
          match trackers.get? (umT.getD ti 0) with
          | some tr =>
            if p.useReid ∧ (dets.getD (umD.getD di 0) defaultDetection).hasReid ∧
                tr.bankState.hasAppearance then
              cosineSim (dets.getD (umD.getD di 0) defaultDetection).reid tr.bankState.appearance
            else -1
          | none => -1))
    let validM : List (List Bool) :=
      (List.range nD).map (fun di =>
        (List.range nT).map (fun ti =>
          match trackers.get? (umT.getD ti 0) with
          | some tr =>
            decide (p.useReid ∧ (dets.getD (umD.getD di 0) defaultDetection).hasReid ∧
              tr.bankState.hasAppearance)
          | none => false))
    let maxIou : α :=
      (List.range nD).foldl
        (fun acc di => (List.range nT).foldl (fun acc2 ti => max acc2 (getM iouM di ti)) acc) 0
    if !p.useReid ∧ maxIou ≤ p.iouThresh then ([], umD, umT)
    else
      let costM : List (List α) :=
        (List.range nD).map (fun di =>
          (List.range nT).map (fun ti =>
            let iouCost := 1 - getM iouM di ti
            let appCost :=
              if p.useReid ∧ getB validM di ti ∧ p.reidCosThresh ≤ getM simM di ti then
                1 - (getM simM di ti + 1) / 2
              else 1
            let w :=
              if p.useReid ∧ p.iouThresh ≤ getM iouM di ti ∧ appCost < 1 then p.reidWeight else 0
            (1 - w) * iouCost + w * appCost))
      let assignment := (hungarianSolve costM).1
      let used := (List.range nD).filterMap (fun di =>
        let ti := assignment.getD di (-1)
        if 0 ≤ ti ∧ p.iouThresh ≤ getM iouM di ti.toNat then some (di, ti.toNat) else none)
      let matched := used.map (fun pr => (umD.getD pr.1 0, umT.getD pr.2 0))
      let umD2 := (List.range nD).filterMap (fun di =>
        if (used.find? (fun pr => decide (pr.1 = di))).isNone then some (umD.getD di 0) else none)
      let umT2 := (List.range nT).filterMap (fun ti =>
        if (used.find? (fun pr => decide (pr.2 = ti))).isNone then some (umT.getD ti 0) else none)
      (matched, umD2, umT2)

/-- Apply a function to the tracker at an index (in place, like the
source's mutation through `trackers_[t_idx]`). -/
def updAt (ts : List (KTrack α)) (i : ℕ) (f : KTrack α → KTrack α) : List (KTrack α) :=
  match ts.get? i with
  | some tr => ts.set i (f tr)
  | none => ts

/-- The per-frame phases of `OCSort::update`, in the order the source
performs them; used to state ordering claims. -/
inductive Phase where
  | predictPh
  | warpPh
  | assocPrimaryPh
  | updateMatchedPh
  | assocOcrPh
  | updateUnmatchedPh
  | spawnPh
  | retirePh
deriving DecidableEq

/-- Result of one engine update: new state, emitted `(id, result)` pairs
in pool order, and the trace of phases executed. -/
structure OCUpdateOut (α : Type*) where
  state : OCState α
  results : List (ℤ × TrackResultT α)
  events : List Phase
deriving DecidableEq

set_option maxHeartbeats 2000000 in
/-- `OCSort::update`: predict, warp, primary association, primary matched
updates, OCR, OCR matched updates, unmatched updates, spawn, retire, then
emission of confirmed tracks. -/
def ocsortUpdate (no : NumOps α) (p : OCParams α) (st : OCState α)
    (dets : List (DetectionT α)) (returnAll : Bool) (warp : Option (Mat3T α)) (w h : ℤ) :
    OCUpdateOut α :=
  let fc := st.frameCount + 1
  let ts1 := st.trackers.map KTrack.predict
  let ev1 : List Phase := [.predictPh]
  let ts2 :=
    match warp with
    | some M => if 0 < w ∧ 0 < h then ts1.map (fun tr => tr.applyWarp no M w h) else ts1
    | none => ts1
  let ev2 := ev1 ++ [.warpPh]
  let assocOut := associate no p ts2 dets
  let ev3 := ev2 ++ [.assocPrimaryPh]
  let ts3 := assocOut.1.foldl
    (fun ts pr => updAt ts pr.2 (fun tr => tr.update no (some (dets.getD pr.1 defaultDetection))))
    ts2
  let ev4 := ev3 ++ [.updateMatchedPh]
  let ocrOut := associateOCR p ts3 dets assocOut.2.1 assocOut.2.2
  let ev5 := ev4 ++ [.assocOcrPh]
  let ts4 := ocrOut.1.foldl
    (fun ts pr => updAt ts pr.2 (fun tr => tr.update no (some (dets.getD pr.1 defaultDetection))))
    ts3
  let ev6 := ev5 ++ [.updateMatchedPh]
  let ts5 := ocrOut.2.2.foldl (fun ts tIdx => updAt ts tIdx (fun tr => tr.update no none)) ts4
  let ev7 := ev6 ++ [.updateUnmatchedPh]
  let spawnOut := ocrOut.2.1.foldl
    (fun acc dIdx =>
      (acc.1 ++ [KTrack.init no (dets.getD dIdx defaultDetection) acc.2 p.deltaT], acc.2 + 1))
    (ts5, st.nextId)
  let ev8 := ev7 ++ [.spawnPh]
  let kept := spawnOut.1.filter (fun tr => decide (¬ p.maxAge < tr.timeSinceUpdate))
  let finApp := (spawnOut.1.filter (fun tr => decide (p.maxAge < tr.timeSinceUpdate))).foldl
    (fun m tr => if tr.bankState.hasAppearance then mapInsert m tr.trackId tr.bankState.appearance else m)
    st.finishedAppearances
  let ev9 := ev8 ++ [.retirePh]
  let results := kept.foldl
    (fun acc tr =>
      let confirmed :=
        (if returnAll then p.minHits ≤ tr.hits else p.minHits ≤ tr.hitStreak) ∨ fc ≤ p.minHits
      if ¬ confirmed then acc
      else if ¬ returnAll ∧ 1 ≤ tr.timeSinceUpdate then acc
      else
        let outB0 := KTrack.getState no tr
        let ob :=
          match tr.lastObservation with
          | some lo => (if tr.timeSinceUpdate = 0 then lo.bbox else outB0, lo.score)
          | none => (outB0, 1)
        let conf :=
          if 0 < tr.timeSinceUpdate then
            ob.2 * max 0 (1 - (1 / 20) * (tr.timeSinceUpdate : α))
          else ob.2
        acc ++ [(tr.trackId, ⟨ob.1, conf⟩)])
    []
  ⟨⟨kept, fc, spawnOut.2, finApp⟩, results, ev9⟩

end Engine

section Pipeline

variable {α : Type*} [LinearOrderedField α]

/-- One recorded frame of a track (`TrackFrame`). -/
structure TrackFrameT (α : Type*) where
  frameIndex : ℤ
  bbox : BBoxT α
  confidence : α
deriving DecidableEq

/-- A final output track (`FaceTrack`). -/
structure FaceTrackT (α : Type*) where
  id : ℤ
  frames : List (TrackFrameT α)
deriving DecidableEq

/-- Clamp a scalar to `[0, 1]`. -/
def clamp01 (v : α) : α := max 0 (min 1 v)

/-- Clamp a bbox to the unit square, componentwise. -/
def clampBBox01 (b : BBoxT α) : BBoxT α :=
  ⟨clamp01 b.x1, clamp01 b.y1, clamp01 b.x2, clamp01 b.y2⟩

/-- The per-track-per-frame recording step of `FacePipeline::process`:
clamp the emitted bbox to the unit square and drop it when its width or
height is below `0.01` or its confidence below `0.05`. -/
def recordFrame (i : ℤ) (pr : ℤ × TrackResultT α) : Option (TrackFrameT α) :=
  let bbox := clampBBox01 pr.2.bbox
  if bbox.width < 1 / 100 ∨ bbox.height < 1 / 100 then none
  else if pr.2.confidence < 1 / 20 then none
  else some ⟨i, bbox, pr.2.confidence⟩

/-- Append frames under a key of an integer-keyed association list. -/
def assocAppend {β : Type*} (m : List (ℤ × List β)) (k : ℤ) (fs : List β) :
    List (ℤ × List β) :=
  if (m.find? (fun p => decide (p.1 = k))).isSome then
    m.map (fun p => if p.1 = k then (p.1, p.2 ++ fs) else p)
  else m ++ [(k, fs)]

/-- Accumulate the per-frame engine outputs into `track_data`, keyed by
track id, dropping frames that fail the recording filter. -/
def collectTrackData (perFrame : List (ℤ × List (ℤ × TrackResultT α))) :
    List (ℤ × List (TrackFrameT α)) :=
  perFrame.foldl
    (fun td fr =>
      fr.2.foldl
        (fun td2 pr =>
          match recordFrame fr.1 pr with
          | none => td2
          | some f => assocAppend td2 pr.1 [f])
        td)
    []

/-- Insertion into a frame-index-sorted list (model of the source's sort
by `frame_index`). -/
def insertByFrame (f : TrackFrameT α) : List (TrackFrameT α) → List (TrackFrameT α)
  | [] => [f]
  | g :: gs => if f.frameIndex < g.frameIndex then f :: g :: gs else g :: insertByFrame f gs

/-- Sort a frame list by frame index. -/
def sortByFrame (l : List (TrackFrameT α)) : List (TrackFrameT α) :=
  l.foldr insertByFrame []

/-- Per-frame deduplication keeping the highest confidence, as in the
merge loop of `FacePipeline::process`. -/
def dedupFrames (fs : List (TrackFrameT α)) : List (TrackFrameT α) :=
  fs.foldl
    (fun acc f =>
      match acc.getLast? with
      | none => acc ++ [f]
      | some g =>
        if g.frameIndex ≠ f.frameIndex then acc ++ [f]
        else if g.confidence < f.confidence then acc.dropLast ++ [f]
        else acc)
    []

/-- Merge `track_data` lists by union-find representative. -/
def mergeByRoot (root : ℤ → ℤ) (td : List (ℤ × List (TrackFrameT α))) :
    List (ℤ × List (TrackFrameT α)) :=
  td.foldl (fun m p => assocAppend m (root p.1) p.2) []

/-- Insertion into an id-sorted track list. -/
def insertById (t : FaceTrackT α) : List (FaceTrackT α) → List (FaceTrackT α)
  | [] => [t]
  | u :: us => if t.id < u.id then t :: u :: us else u :: insertById t us

/-- Final assembly of `FacePipeline::process`: merge recorded tracklets
under a union-find root map, sort and deduplicate each merged track's
frames, drop short or low-confidence tracks, and sort by id. -/
def buildFaceTracks (confThresh : α) (root : ℤ → ℤ)
    (td : List (ℤ × List (TrackFrameT α))) : List (FaceTrackT α) :=
  let merged := mergeByRoot root td
  let tracks := merged.filterMap (fun p =>
    let fs := dedupFrames (sortByFrame p.2)
    if fs.length < 10 then none
    else
      let ge := (fs.filter (fun f => decide (confThresh ≤ f.confidence))).length
      if ge < 3 ∨ ((ge : α) / (fs.length : α)) < 3 / 20 then none
      else some (⟨p.1, fs⟩ : FaceTrackT α))
  tracks.foldr insertById []

/-- The record-and-assemble tail of `FacePipeline::process`, taking the
per-frame engine outputs and a union-find root map as inputs. -/
def pipelineTracks (confThresh : α) (root : ℤ → ℤ)
    (perFrame : List (ℤ × List (ℤ × TrackResultT α))) : List (FaceTrackT α) :=
  buildFaceTracks confThresh root (collectTrackData perFrame)

end Pipeline

section ClaimSupport

variable {α : Type*} [LinearOrderedField α]

/-- The output bbox invariant of the spec: inside the unit square with
positive extent of at least `0.01` on both axes. -/
def bboxEmitInvariant (b : BBoxT α) : Prop :=
  0 ≤ b.x1 ∧ b.x1 < b.x2 ∧ b.x2 ≤ 1 ∧ 0 ≤ b.y1 ∧ b.y1 < b.y2 ∧ b.y2 ≤ 1 ∧
    1 / 100 ≤ b.width ∧ 1 / 100 ≤ b.height

/-- The emission predicate as the spec words it: confirmed (hit streak in
default mode, total hits in `return_all` mode, or the engine within its
first `min_hits` frames) and, in default mode, updated this frame. -/
def specEmits (p : OCParams α) (returnAll : Bool) (fcAfter : ℤ) (tr : KTrack α) : Bool :=
  (decide ((if returnAll then p.minHits ≤ tr.hits else p.minHits ≤ tr.hitStreak) ∨
      fcAfter ≤ p.minHits)) &&
    (returnAll || decide (tr.timeSinceUpdate = 0))

/-- The result record built for an emitted track: last observation bbox
when updated this frame else the prediction, and the decayed last score. -/
def mkEmitResult (no : NumOps α) (tr : KTrack α) : TrackResultT α :=
  let outB0 := KTrack.getState no tr
  let ob :=
    match tr.lastObservation with
    | some lo => (if tr.timeSinceUpdate = 0 then lo.bbox else outB0, lo.score)
    | none => (outB0, (1 : α))
  let conf :=
    if 0 < tr.timeSinceUpdate then ob.2 * max 0 (1 - (1 / 20) * (tr.timeSinceUpdate : α))
    else ob.2
  ⟨ob.1, conf⟩

/-- The ORU replay exactly as the spec words it: roll back to the saved
snapshot, then for each `k ∈ 1..g-1` apply one `predictKF` and one
`updateKF` against the measurement interpolating `(cx, cy, w, h)` between
the two observations at fraction `k / g`, then apply one final
`predictKF`. -/
def oruReplaySpec (no : NumOps α) (sx sP : List (List α)) (prevM cur : MeasT α) (g : ℕ) :
    List (List α) × List (List α) :=
  let a := measurementToXYWH no prevM
  let b := measurementToXYWH no cur
  let virt : ℕ → MeasT α := fun k =>
    let al : α := (k : α) / (g : α)
    xywhToMeasurement
      (a.1 + al * (b.1 - a.1))
      (a.2.1 + al * (b.2.1 - a.2.1))
      (a.2.2.1 + al * (b.2.2.1 - a.2.2.1))
      (a.2.2.2 + al * (b.2.2.2 - a.2.2.2))
  predictKFm
    (((List.range (g - 1)).map (fun k : ℕ => k + 1)).foldl
      (fun st k => updateKFm (predictKFm st) (virt k))
      (sx, sP))

/-- At most one `true` per row of a boolean matrix. -/
def rowAtMostOne (s : List (List Bool)) : Prop :=
  ∀ r c1 c2, getB s r c1 = true → getB s r c2 = true → c1 = c2

/-- At most one `true` per column of a boolean matrix. -/
def colAtMostOne (s : List (List Bool)) : Prop :=
  ∀ c r1 r2, getB s r1 c = true → getB s r2 c = true → r1 = r2

/-- A star matrix that is a partial matching. -/
def isMatching (s : List (List Bool)) : Prop :=
  rowAtMostOne s ∧ colAtMostOne s

/-- The qualities of the eligible appearance offers in a sequence of
update arguments: detections with `has_reid` whose clamped quality meets
the `0.40` gate. -/
def eligibleQuals (seq : List (Option (DetectionT α))) : List α :=
  seq.filterMap (fun od =>
    match od with
    | some d => if d.hasReid ∧ 2 / 5 ≤ max 0 d.reidQuality then some (max 0 d.reidQuality) else none
    | none => none)

/-- The qualities currently held by a tracker's appearance bank. -/
def bankQuals (bs : BankState α) : Multiset α :=
  (bs.bank.map (fun p => p.2) : List α)

/-- A multiset `B` is a top-`K` selection of `E`: it is contained in `E`,
has `min K |E|` elements, and dominates everything left out. -/
def isTopK (K : ℕ) (B E : Multiset α) : Prop :=
  B ≤ E ∧ Multiset.card B = min K (Multiset.card E) ∧
    ∀ a ∈ E - B, ∀ b ∈ B, a ≤ b

/-- The eligible-quality contribution of a single detection offer. -/
def eligOne (d : DetectionT α) : Multiset α :=
  if d.hasReid ∧ 2 / 5 ≤ max 0 d.reidQuality then {max 0 d.reidQuality} else 0

/-- The scan step of the source's worst-bank-entry search (a named form of
the fold body in `worstBankIdx`). -/
def worstStep (acc : ℕ × α) (ip : ℕ × (List α × α)) : ℕ × α :=
  if ip.2.2 < acc.2 then (ip.1 + 1, ip.2.2) else acc

/-- A detection carrying an appearance sample, used as a concrete
appearance-bank input. -/
def demoReidDet : DetectionT ℚ := ⟨⟨0, 0, 1 / 2, 1 / 2⟩, 9 / 10, [1, 0], true, 7 / 10⟩

/-- The numeric operations of the source (`std::sqrt`, `std::acos`,
`M_PI`) instantiated at the reals. -/
noncomputable def realOps : NumOps ℝ := ⟨Real.sqrt, Real.arccos, Real.pi⟩

/-- A boolean matrix of exactly the algorithm's working dimensions. -/
def matShape (m : List (List Bool)) (nRows nCols : ℕ) : Prop :=
  m.length = nRows ∧ ∀ row ∈ m, row.length = nCols

/-- One row step of `starZerosRows` (a named form of its fold body). -/
def starZerosRowsStep (m : List (List α)) (nCols : ℕ)
    (acc : List (List Bool) × List Bool) (r : ℕ) : List (List Bool) × List Bool :=
  match (List.range nCols).find?
      (fun c => decide (|getM m r c| < dblEpsilon) && !(getCov acc.2 c)) with
  | some c => (setB acc.1 r c true, acc.2.set c true)
  | none => acc

/-- One column step of `starZerosCols` (a named form of its fold body). -/
def starZerosColsStep (m : List (List α)) (nRows : ℕ)
    (acc : List (List Bool) × List Bool × List Bool) (c : ℕ) :
    List (List Bool) × List Bool × List Bool :=
  match (List.range nRows).find?
      (fun r => decide (|getM m r c| < dblEpsilon) && !(getCov acc.2.2 r)) with
  | some r => (setB acc.1 r c true, acc.2.1.set c true, acc.2.2.set r true)
  | none => acc

/-- The deterministic column step of the step-4 alternating walk: the
starred row of the column, then that row's primed column.  The walk of
`augmentPath` visits exactly the orbit of this map. -/
def gstep (S prim : List (List Bool)) (nRows nCols c : ℕ) : Option ℕ :=
  match findStarRowInCol S c nRows with
  | none => none
  | some r => findPrimeColInRow prim r nCols

/-- Invariant of the step-4 walk: `V` is the list of already-left
columns, `col` the current one.  The visited columns step into the
visited set, the matrix keeps its shape, rows hold at most one star,
left columns hold at most one, the current column holds at most one
non-original star and keeps all original ones, unvisited columns hold
only original stars, and no original star outside `V` was removed. -/
def pathInv (S prim N : List (List Bool)) (nRows nCols col : ℕ) (V : List ℕ) : Prop :=
  (∀ c ∈ V, ∃ pc, gstep S prim nRows nCols c = some pc ∧ pc ∈ V ++ [col]) ∧
  col ∉ V ∧
  matShape N nRows nCols ∧
  col < nCols ∧
  rowAtMostOne N ∧
  (∀ c, c ≠ col → ∀ r1 r2, getB N r1 c = true → getB N r2 c = true → r1 = r2) ∧
  (∀ r1 r2, getB N r1 col = true → getB S r1 col = false →
    getB N r2 col = true → getB S r2 col = false → r1 = r2) ∧
  (∀ c, c ∉ V → c ≠ col → ∀ r, getB N r c = true → getB S r c = true) ∧
  (∀ r c, getB S r c = true → c ∉ V → getB N r c = true)

/-- Degenerate numeric operations used to instantiate concrete checks at
the rationals (no theorem depends on their values). -/
def qOps : NumOps ℚ := ⟨fun _ => 0, fun _ => 0, 0⟩

/-- Ten frames of one emitted track, used as a concrete pipeline input. -/
def demoPerFrame : List (ℤ × List (ℤ × TrackResultT ℚ)) :=
  (List.range 10).map (fun i => ((i : ℤ), [(0, ⟨⟨0, 0, 1 / 2, 1 / 2⟩, 1⟩)]))

/-- The face track the pipeline assembles from `demoPerFrame`. -/
def demoTrack : FaceTrackT ℚ :=
  ⟨0, (List.range 10).map (fun i => ⟨(i : ℤ), ⟨0, 0, 1 / 2, 1 / 2⟩, 1⟩)⟩

/-- The first frame of `demoTrack`. -/
def demoFrame : TrackFrameT ℚ := ⟨0, ⟨0, 0, 1 / 2, 1 / 2⟩, 1⟩

/-- A first observation for the ORU gap scenario. -/
def demoGapDet0 : DetectionT ℚ := ⟨⟨0, 0, 1 / 4, 1 / 4⟩, 9 / 10, [], false, 0⟩

/-- The re-activating observation for the ORU gap scenario. -/
def demoGapDet1 : DetectionT ℚ := ⟨⟨1 / 2, 1 / 2, 3 / 4, 3 / 4⟩, 9 / 10, [], false, 0⟩

/-- A tracker observed once and then unobserved for two frames: its ORU
history is `[some z0, none, none]` and it is due for re-activation. -/
def demoGapTracker : KTrack ℚ :=
  ((((KTrack.init qOps demoGapDet0 0 3).predict.update qOps none).predict.update
    qOps none).predict)

end ClaimSupport

section ClaimC7

variable {α : Type*} [LinearOrderedField α]

unseal Rat.mul Rat.inv Rat.add Rat.sub in
/-- C7 counterexample: on a warp whose projective row is zero the
denominator is `0`, and `warp_point_px` does not return the input point
`(1, 2)` unchanged (it returns the undivided numerators `(2, 2)`). -/
theorem warp_point_fallback_cex :
    warpPointPx (⟨2, 0, 0, 0, 1, 0, 0, 0, 0⟩ : Mat3T ℚ) 1 2 ≠ (1, 2) := by
  decide

/-- C7 (amended): `warp_point_px` divides the affine numerators by
`den = m20*x + m21*y + m22` whenever `|den| ≥ 1e-6`, and otherwise
returns the undivided numerators (not the input point). -/
theorem warpPointPx_cases (M : Mat3T α) (x y : α) :
    (1 / 10 ^ 6 ≤ |M.m20 * x + M.m21 * y + M.m22| →
      warpPointPx M x y =
        ((M.m00 * x + M.m01 * y + M.m02) / (M.m20 * x + M.m21 * y + M.m22),
          (M.m10 * x + M.m11 * y + M.m12) / (M.m20 * x + M.m21 * y + M.m22))) ∧
    (|M.m20 * x + M.m21 * y + M.m22| < 1 / 10 ^ 6 →
      warpPointPx M x y =
        (M.m00 * x + M.m01 * y + M.m02, M.m10 * x + M.m11 * y + M.m12)) := by
  constructor
  · intro hd
    unfold warpPointPx
    rw [if_neg (not_lt.mpr hd)]
  · intro hd
    unfold warpPointPx
    rw [if_pos hd]

/-- C7 witness: the division case evaluated on the identity warp. -/
theorem warpPointPx_cases_witness :
    warpPointPx (⟨1, 0, 0, 0, 1, 0, 0, 0, 1⟩ : Mat3T ℚ) 3 4 =
      ((1 * 3 + 0 * 4 + 0) / (0 * 3 + 0 * 4 + 1), (0 * 3 + 1 * 4 + 0) / (0 * 3 + 0 * 4 + 1)) :=
  (warpPointPx_cases (⟨1, 0, 0, 0, 1, 0, 0, 0, 1⟩ : Mat3T ℚ) 3 4).1 (by norm_num)

end ClaimC7

section ClaimC9

variable {α : Type*} [LinearOrderedField α]

/-- C9: on a nonempty cost matrix all of whose rows are empty,
`HungarianAlgorithm::solve` returns all rows unassigned with total cost
`0`. -/
theorem hungarian_zero_columns (m : List (List α)) (h1 : m ≠ [])
    (h2 : ∀ r ∈ m, r = []) : hungarianSolve m = (List.replicate m.length (-1), 0) := by
  unfold hungarianSolve
  cases m with
  | nil => exact absurd rfl h1
  | cons r rest =>
    have hr : r = [] := h2 r (by simp)
    subst hr
    simp [List.headI]

/-- C9 witness: a 2-row, 0-column matrix. -/
theorem hungarian_zero_columns_witness :
    hungarianSolve ([[], []] : List (List ℚ)) = ([-1, -1], 0) := by
  simpa using hungarian_zero_columns ([[], []] : List (List ℚ)) (by decide) (by decide)

end ClaimC9

section ClaimC10

variable {α : Type*} [LinearOrderedField α]

/-- C10: `applyWarp` with a nonpositive frame dimension leaves the whole
tracker state (filter state, covariance, observation stores, ORU data,
velocity direction and counters) unchanged. -/
theorem applyWarp_nonpositive_noop (no : NumOps α) (tr : KTrack α) (M : Mat3T α)
    (w h : ℤ) (hwh : w ≤ 0 ∨ h ≤ 0) : tr.applyWarp no M w h = tr := by
  unfold KTrack.applyWarp
  rw [if_pos hwh]

/-- C10 witness: a concrete tracker, warp and zero frame width. -/
theorem applyWarp_nonpositive_noop_witness :
    (KTrack.init qOps ⟨⟨0, 0, 1, 1⟩, 1, [], false, 0⟩ 0 3).applyWarp qOps
        ⟨1, 0, 0, 0, 1, 0, 0, 0, 1⟩ 0 720 =
      KTrack.init qOps ⟨⟨0, 0, 1, 1⟩, 1, [], false, 0⟩ 0 3 :=
  applyWarp_nonpositive_noop qOps _ _ 0 720 (Or.inl (by decide))

end ClaimC10

section ClaimC8

variable {α : Type*} [LinearOrderedField α]

/-- C8 counterexample: on a concrete frame the phase trace of
`OCSort::update` is not the claimed order (primary association, OCR, then
matched updates); the primary matched updates happen before OCR. -/
theorem ocsort_phase_order_cex :
    (ocsortUpdate qOps ⟨3 / 20, 30, 3, 3, 1 / 5, false, 7 / 20, 7 / 20⟩ ⟨[], 0, 0, []⟩
        [] true none 0 0).events ≠
      [Phase.predictPh, Phase.warpPh, Phase.assocPrimaryPh, Phase.assocOcrPh,
        Phase.updateMatchedPh, Phase.updateUnmatchedPh, Phase.spawnPh, Phase.retirePh] := by
  decide

/-- C8 (amended): within every `OCSort::update` the phases occur in the
order predict, warp, primary association, applying the primary matched
updates, OCR, applying the OCR matched updates, applying unmatched
updates, spawn, retire. -/
theorem ocsort_phase_order (no : NumOps α) (p : OCParams α) (st : OCState α)
    (dets : List (DetectionT α)) (returnAll : Bool) (warp : Option (Mat3T α)) (w h : ℤ) :
    (ocsortUpdate no p st dets returnAll warp w h).events =
      [Phase.predictPh, Phase.warpPh, Phase.assocPrimaryPh, Phase.updateMatchedPh,
        Phase.assocOcrPh, Phase.updateMatchedPh, Phase.updateUnmatchedPh,
        Phase.spawnPh, Phase.retirePh] := rfl

end ClaimC8

section ClaimC2

variable {α : Type*} [LinearOrderedField α]

/-- Generic preservation of a property by a left fold over list
accumulators. -/
theorem foldl_forall_mem {β γ : Type*} {Q : γ → Prop} {step : List γ → β → List γ}
    {l : List β} {init : List γ}
    (hinit : ∀ x ∈ init, Q x)
    (hstep : ∀ acc b, b ∈ l → (∀ x ∈ acc, Q x) → ∀ x ∈ step acc b, Q x) :
    ∀ x ∈ l.foldl step init, Q x := by
  induction l generalizing init with
  | nil => exact hinit
  | cons b bs ih =>
    exact ih (hstep init b (List.mem_cons_self b bs) hinit)
      (fun acc b2 hb2 => hstep acc b2 (List.mem_cons_of_mem b hb2))

/-- Members of an `assocAppend` carry a pointwise property when both the
old map and the appended values do. -/
theorem assocAppend_forall {β : Type*} {P : β → Prop} {m : List (ℤ × List β)} {k : ℤ}
    {fs : List β} (hm : ∀ p ∈ m, ∀ f ∈ p.2, P f) (hfs : ∀ f ∈ fs, P f) :
    ∀ p ∈ assocAppend m k fs, ∀ f ∈ p.2, P f := by
  intro p hp
  unfold assocAppend at hp
  split at hp
  · obtain ⟨q, hq, rfl⟩ := List.mem_map.mp hp
    by_cases hk : q.1 = k
    · simp only [hk, if_pos rfl]
      intro f hf
      rcases List.mem_append.mp hf with hfq | hff
      · exact hm q hq f hfq
      · exact hfs f hff
    · simp only [if_neg hk]
      exact hm q hq
  · rcases List.mem_append.mp hp with hpm | hpk
    · exact hm p hpm
    · intro f hf
      have hp2 : p = (k, fs) := by simpa using hpk
      rw [hp2] at hf
      exact hfs f hf

/-- A frame that survives the recording filter satisfies the output bbox
invariant. -/
theorem recordFrame_invariant {i : ℤ} {pr : ℤ × TrackResultT α} {f : TrackFrameT α}
    (h : recordFrame i pr = some f) : bboxEmitInvariant f.bbox := by
  simp only [recordFrame] at h
  split_ifs at h with hsize hconf
  have hf : f = ⟨i, clampBBox01 pr.2.bbox, pr.2.confidence⟩ :=
    (Option.some_injective _ h).symm
  subst hf
  push_neg at hsize
  obtain ⟨hw, hh⟩ := hsize
  set b := clampBBox01 pr.2.bbox with hb
  have hx1lo : (0 : α) ≤ b.x1 := le_max_left _ _
  have hy1lo : (0 : α) ≤ b.y1 := le_max_left _ _
  have hx2hi : b.x2 ≤ 1 := max_le (by norm_num) (min_le_left _ _)
  have hy2hi : b.y2 ≤ 1 := max_le (by norm_num) (min_le_left _ _)
  have hwpos : (0 : α) < b.width := lt_of_lt_of_le (by norm_num) hw
  have hhpos : (0 : α) < b.height := lt_of_lt_of_le (by norm_num) hh
  exact ⟨hx1lo, sub_pos.mp hwpos, hx2hi, hy1lo, sub_pos.mp hhpos, hy2hi, hw, hh⟩

/-- Every frame collected into `track_data` satisfies the invariant. -/
theorem collectTrackData_invariant (perFrame : List (ℤ × List (ℤ × TrackResultT α))) :
    ∀ p ∈ collectTrackData perFrame, ∀ f ∈ p.2, bboxEmitInvariant f.bbox := by
  unfold collectTrackData
  refine foldl_forall_mem (by simp) ?_
  intro td fr _ htd
  refine foldl_forall_mem htd ?_
  intro td2 pr _ htd2
  cases hrec : recordFrame (α := α) fr.1 pr with
  | none => simpa [hrec] using htd2
  | some f =>
    have hinv : bboxEmitInvariant f.bbox := recordFrame_invariant hrec
    simp only [hrec]
    exact assocAppend_forall htd2 (by simpa using hinv)

/-- `mergeByRoot` preserves a pointwise frame property. -/
theorem mergeByRoot_forall {P : TrackFrameT α → Prop} {root : ℤ → ℤ}
    {td : List (ℤ × List (TrackFrameT α))}
    (h : ∀ p ∈ td, ∀ f ∈ p.2, P f) :
    ∀ p ∈ mergeByRoot root td, ∀ f ∈ p.2, P f := by
  unfold mergeByRoot
  refine foldl_forall_mem (by simp) ?_
  intro m q hq hmm
  exact assocAppend_forall hmm (h q hq)

/-- Insertion sort membership. -/
theorem mem_insertByFrame {x f : TrackFrameT α} {l : List (TrackFrameT α)}
    (h : x ∈ insertByFrame f l) : x = f ∨ x ∈ l := by
  induction l with
  | nil => simpa [insertByFrame] using h
  | cons g gs ih =>
    unfold insertByFrame at h
    split at h
    · rcases List.mem_cons.mp h with h1 | h2
      · exact Or.inl h1
      · exact Or.inr h2
    · rcases List.mem_cons.mp h with h1 | h2
      · exact Or.inr (h1 ▸ List.mem_cons_self g gs)
      · rcases ih h2 with h3 | h4
        · exact Or.inl h3
        · exact Or.inr (List.mem_cons_of_mem g h4)

/-- Sorting by frame index does not introduce frames. -/
theorem mem_sortByFrame {x : TrackFrameT α} {l : List (TrackFrameT α)}
    (h : x ∈ sortByFrame l) : x ∈ l := by
  induction l with
  | nil => simpa [sortByFrame] using h
  | cons g gs ih =>
    have h2 : x ∈ insertByFrame g (sortByFrame gs) := h
    rcases mem_insertByFrame h2 with h3 | h4
    · exact h3 ▸ List.mem_cons_self g gs
    · exact List.mem_cons_of_mem g (ih h4)

/-- Per-frame deduplication does not introduce frames. -/
theorem mem_dedupFrames {x : TrackFrameT α} {fs : List (TrackFrameT α)}
    (h : x ∈ dedupFrames fs) : x ∈ fs := by
  unfold dedupFrames at h
  refine foldl_forall_mem (Q := fun y => y ∈ fs) (by simp) ?_ x h
  intro acc f hf hacc y hy
  split at hy
  · rcases List.mem_append.mp hy with h1 | h2
    · exact hacc y h1
    · simpa using (by simpa using h2 : y = f) ▸ hf
  · split at hy
    · rcases List.mem_append.mp hy with h1 | h2
      · exact hacc y h1
      · simpa using (by simpa using h2 : y = f) ▸ hf
    · split at hy
      · rcases List.mem_append.mp hy with h1 | h2
        · exact hacc y (List.dropLast_subset acc h1)
        · simpa using (by simpa using h2 : y = f) ▸ hf
      · exact hacc y hy

/-- Sorting by id does not introduce tracks. -/
theorem mem_insertById {x t : FaceTrackT α} {l : List (FaceTrackT α)}
    (h : x ∈ insertById t l) : x = t ∨ x ∈ l := by
  induction l with
  | nil => simpa [insertById] using h
  | cons u us ih =>
    unfold insertById at h
    split at h
    · rcases List.mem_cons.mp h with h1 | h2
      · exact Or.inl h1
      · exact Or.inr h2
    · rcases List.mem_cons.mp h with h1 | h2
      · exact Or.inr (h1 ▸ List.mem_cons_self u us)
      · rcases ih h2 with h3 | h4
        · exact Or.inl h3
        · exact Or.inr (List.mem_cons_of_mem u h4)

/-- Members of the final id-sort fold come from the input list. -/
theorem mem_foldr_insertById {x : FaceTrackT α} {l : List (FaceTrackT α)}
    (h : x ∈ l.foldr insertById []) : x ∈ l := by
  induction l with
  | nil => simpa using h
  | cons u us ih =>
    have h2 : x ∈ insertById u (us.foldr insertById []) := h
    rcases mem_insertById h2 with h3 | h4
    · exact h3 ▸ List.mem_cons_self u us
    · exact List.mem_cons_of_mem u (ih h4)

/-- C2: every frame of every `FaceTrack` assembled by the
`FacePipeline::process` recording and linking tail satisfies
`0 ≤ x1 < x2 ≤ 1`, `0 ≤ y1 < y2 ≤ 1`, and both extents at least `0.01`,
for arbitrary per-frame tracker outputs and any union-find root map. -/
theorem pipeline_output_bbox_invariant (confThresh : α) (root : ℤ → ℤ)
    (perFrame : List (ℤ × List (ℤ × TrackResultT α))) :
    ∀ t ∈ pipelineTracks confThresh root perFrame, ∀ f ∈ t.frames,
      bboxEmitInvariant f.bbox := by
  intro t ht f hf
  unfold pipelineTracks buildFaceTracks at ht
  have hmerged :
      ∀ p ∈ mergeByRoot root (collectTrackData perFrame), ∀ g ∈ p.2,
        bboxEmitInvariant g.bbox :=
    mergeByRoot_forall (collectTrackData_invariant perFrame)
  have htl := mem_foldr_insertById ht
  obtain ⟨p, hp, hpu⟩ := List.mem_filterMap.mp htl
  have hfs : t.frames = dedupFrames (sortByFrame p.2) := by
    dsimp only at hpu
    split at hpu
    · exact absurd hpu (by simp)
    · split at hpu
      · exact absurd hpu (by simp)
      · cases hpu
        rfl
  rw [hfs] at hf
  exact hmerged p hp f (mem_sortByFrame (mem_dedupFrames hf))

set_option maxRecDepth 100000 in
unseal Rat.mul Rat.inv Rat.add Rat.sub in
/-- C2 witness: a ten-frame single-track run evaluated concretely. -/
theorem pipeline_output_bbox_invariant_witness : bboxEmitInvariant demoFrame.bbox :=
  pipeline_output_bbox_invariant (0 : ℚ) id demoPerFrame demoTrack (by decide) demoFrame
    (by decide)

end ClaimC2

section ClaimC1

variable {α : Type*} [LinearOrderedField α]

/-- `maybeRunORU` leaves the tracker unchanged when the history has fewer
than two real observations. -/
theorem maybeRunORU_noop_no_two (no : NumOps α) (tr : KTrack α) (cur : MeasT α)
    (hft : findLastTwo tr.oruHistory = none) : maybeRunORU no tr cur = tr := by
  unfold maybeRunORU
  cases hsx : tr.oruSavedX with
  | none => rfl
  | some sx =>
    cases hsP : tr.oruSavedP with
    | none => rfl
    | some sP => rw [hft]

/-- `maybeRunORU` leaves the tracker unchanged when the two most recent
real observations are adjacent (gap below 2). -/
theorem maybeRunORU_noop_small_gap (no : NumOps α) (tr : KTrack α) (cur : MeasT α)
    (i1 i2 : ℕ) (hft : findLastTwo tr.oruHistory = some (i1, i2)) (hgap : i2 - i1 < 2) :
    maybeRunORU no tr cur = tr := by
  unfold maybeRunORU
  cases hsx : tr.oruSavedX with
  | none => rfl
  | some sx =>
    cases hsP : tr.oruSavedP with
    | none => rfl
    | some sP =>
      rw [hft]
      simp [hgap]

/-- With a gap of at least 2, `maybeRunORU` rewrites the filter state to
exactly the spec's rollback-and-replay composition. -/
theorem maybeRunORU_replay (no : NumOps α) (tr : KTrack α) (cur : MeasT α)
    (sx sP : List (List α)) (i1 i2 : ℕ) (pm : MeasT α)
    (hsx : tr.oruSavedX = some sx) (hsP : tr.oruSavedP = some sP)
    (hft : findLastTwo tr.oruHistory = some (i1, i2))
    (hgap : 2 ≤ i2 - i1)
    (hpm : tr.oruHistory.getD i1 none = some pm) :
    ((maybeRunORU no tr cur).x, (maybeRunORU no tr cur).P) =
      oruReplaySpec no sx sP pm cur (i2 - i1) := by
  unfold maybeRunORU
  rw [hsx, hsP, hft]
  dsimp only
  rw [if_neg (not_lt.mpr hgap), hpm]
  rfl

/-- In the observation branch of `update` on a previously unobserved
tracker, the filter state is the Kalman correction of whatever
`maybeRunORU` produced on the extended history. -/
theorem update_xP_after_oru (no : NumOps α) (tr : KTrack α) (d : DetectionT α)
    (hobs : tr.oruObserved = false) :
    ((tr.update no (some d)).x, (tr.update no (some d)).P) =
      updateKFm
        ((maybeRunORU no { tr with oruHistory := tr.oruHistory ++ [some (bboxToMeasurement d.bbox)] }
            (bboxToMeasurement d.bbox)).x,
          (maybeRunORU no { tr with oruHistory := tr.oruHistory ++ [some (bboxToMeasurement d.bbox)] }
            (bboxToMeasurement d.bbox)).P)
        (bboxToMeasurement d.bbox) := by
  unfold KTrack.update
  rw [hobs]
  simp only [Bool.false_eq_true, reduceIte]
  set tr2 := maybeRunORU no
      { tr with oruHistory := tr.oruHistory ++ [some (bboxToMeasurement d.bbox)], oruObserved := false }
    (bboxToMeasurement d.bbox) with htr2
  cases hlo : tr2.lastObservation with
  | none => rfl
  | some lo =>
    by_cases hsc : (0 : α) ≤ lo.score
    · dsimp only
      rw [if_pos hsc]
    · dsimp only
      rw [if_neg hsc]

/-- C1: a previously unobserved tracker receiving a real detection first
rolls its filter back to the saved snapshot and replays the spec's
virtual trajectory whenever the two most recent real observations of the
extended history sit `g = i2 - i1 ≥ 2` frames apart (the caller's real
Kalman update follows); with `g < 2` or fewer than two real observations
the filter state is left as-is for the real update. -/
theorem oru_reactivation_replay (no : NumOps α) (tr : KTrack α) (d : DetectionT α)
    (hobs : tr.oruObserved = false) :
    (∀ sx sP i1 i2 pm,
        tr.oruSavedX = some sx → tr.oruSavedP = some sP →
        findLastTwo (tr.oruHistory ++ [some (bboxToMeasurement d.bbox)]) = some (i1, i2) →
        2 ≤ i2 - i1 →
        (tr.oruHistory ++ [some (bboxToMeasurement d.bbox)]).getD i1 none = some pm →
        ((tr.update no (some d)).x, (tr.update no (some d)).P) =
          updateKFm (oruReplaySpec no sx sP pm (bboxToMeasurement d.bbox) (i2 - i1))
            (bboxToMeasurement d.bbox)) ∧
    (∀ i1 i2,
        findLastTwo (tr.oruHistory ++ [some (bboxToMeasurement d.bbox)]) = some (i1, i2) →
        i2 - i1 < 2 →
        ((tr.update no (some d)).x, (tr.update no (some d)).P) =
          updateKFm (tr.x, tr.P) (bboxToMeasurement d.bbox)) ∧
    (findLastTwo (tr.oruHistory ++ [some (bboxToMeasurement d.bbox)]) = none →
        ((tr.update no (some d)).x, (tr.update no (some d)).P) =
          updateKFm (tr.x, tr.P) (bboxToMeasurement d.bbox)) := by
  refine ⟨?_, ?_, ?_⟩
  · intro sx sP i1 i2 pm hsx hsP hft hgap hpm
    rw [update_xP_after_oru no tr d hobs]
    rw [maybeRunORU_replay no
      { tr with oruHistory := tr.oruHistory ++ [some (bboxToMeasurement d.bbox)] }
      (bboxToMeasurement d.bbox) sx sP i1 i2 pm hsx hsP hft hgap hpm]
  · intro i1 i2 hft hgap
    rw [update_xP_after_oru no tr d hobs]
    rw [maybeRunORU_noop_small_gap no
      { tr with oruHistory := tr.oruHistory ++ [some (bboxToMeasurement d.bbox)] }
      (bboxToMeasurement d.bbox) i1 i2 hft hgap]
  · intro hft
    rw [update_xP_after_oru no tr d hobs]
    rw [maybeRunORU_noop_no_two no
      { tr with oruHistory := tr.oruHistory ++ [some (bboxToMeasurement d.bbox)] }
      (bboxToMeasurement d.bbox) hft]

set_option maxRecDepth 100000 in
unseal Rat.mul Rat.inv Rat.add Rat.sub in
/-- C1 witness: a tracker with history `[some z0, none, none]` receiving
a fourth-frame detection replays a gap of 3. -/
theorem oru_reactivation_replay_witness :
    ((demoGapTracker.update qOps (some demoGapDet1)).x,
        (demoGapTracker.update qOps (some demoGapDet1)).P) =
      updateKFm
        (oruReplaySpec qOps [[1 / 8], [1 / 8], [1 / 16], [1], [0], [0], [0]] kfP0
          ⟨1 / 8, 1 / 8, 1 / 16, 1⟩ (bboxToMeasurement demoGapDet1.bbox) (3 - 0))
        (bboxToMeasurement demoGapDet1.bbox) :=
  (oru_reactivation_replay qOps demoGapTracker demoGapDet1 (by decide)).1
    [[1 / 8], [1 / 8], [1 / 16], [1], [0], [0], [0]] kfP0 0 3 ⟨1 / 8, 1 / 8, 1 / 16, 1⟩
    (by decide) (by decide) (by decide) (by decide) (by decide)

end ClaimC1

section ClaimC4

variable {α : Type*} [LinearOrderedField α]

/-- The emission fold over any tracker list with nonnegative
`time_since_update` equals filtering by the spec's emission predicate and
building the emitted records. -/
theorem emitFold_eq (no : NumOps α) (p : OCParams α) (returnAll : Bool) (fc : ℤ)
    (l : List (KTrack α)) :
    (∀ tr ∈ l, 0 ≤ tr.timeSinceUpdate) → ∀ acc : List (ℤ × TrackResultT α),
      (l.foldl
        (fun acc tr =>
          let confirmed :=
            (if returnAll then p.minHits ≤ tr.hits else p.minHits ≤ tr.hitStreak) ∨
              fc ≤ p.minHits
          if ¬ confirmed then acc
          else if ¬ returnAll ∧ 1 ≤ tr.timeSinceUpdate then acc
          else
            let outB0 := KTrack.getState no tr
            let ob :=
              match tr.lastObservation with
              | some lo => (if tr.timeSinceUpdate = 0 then lo.bbox else outB0, lo.score)
              | none => (outB0, (1 : α))
            let conf :=
              if 0 < tr.timeSinceUpdate then
                ob.2 * max 0 (1 - (1 / 20) * (tr.timeSinceUpdate : α))
              else ob.2
            acc ++ [(tr.trackId, ⟨ob.1, conf⟩)])
        acc) =
        acc ++ (l.filter (specEmits p returnAll fc)).map
          (fun tr => (tr.trackId, mkEmitResult no tr)) := by
  induction l with
  | nil =>
    intro _ acc
    simp
  | cons a as ih =>
    intro hl acc
    have ha : (0 : ℤ) ≤ a.timeSinceUpdate := hl a (List.mem_cons_self a as)
    have has : ∀ tr ∈ as, (0 : ℤ) ≤ tr.timeSinceUpdate :=
      fun tr h => hl tr (List.mem_cons_of_mem a h)
    rw [List.foldl_cons, ih has, List.filter_cons]
    by_cases hc :
        (if returnAll then p.minHits ≤ a.hits else p.minHits ≤ a.hitStreak) ∨ fc ≤ p.minHits
    · by_cases hg : ¬ returnAll ∧ 1 ≤ a.timeSinceUpdate
      · have hse : specEmits p returnAll fc a = false := by
          obtain ⟨hra, htsu⟩ := hg
          have h0 : a.timeSinceUpdate ≠ 0 := by omega
          have hraf : returnAll = false := by
            cases returnAll
            · rfl
            · exact absurd rfl hra
          simp [specEmits, hraf, h0]
        simp only [hse]
        rw [if_neg (not_not_intro hc), if_pos hg]
        simp
      · have hse : specEmits p returnAll fc a = true := by
          unfold specEmits
          rw [Bool.and_eq_true, decide_eq_true_eq]
          refine ⟨hc, ?_⟩
          cases hra : returnAll with
          | true => simp
          | false =>
            have h1 : ¬ (1 : ℤ) ≤ a.timeSinceUpdate := by
              intro hx
              exact hg ⟨by simp [hra], hx⟩
            have h0 : a.timeSinceUpdate = 0 := by omega
            simp [h0]
        simp only [hse, reduceIte]
        rw [if_neg (not_not_intro hc), if_neg hg]
        rw [List.map_cons, List.append_assoc, List.singleton_append]
        rfl
    · have hse : specEmits p returnAll fc a = false := by
        simp [specEmits, hc]
      simp only [hse]
      rw [if_pos hc]
      simp

/-- `predict` preserves nonnegativity of `time_since_update`. -/
theorem predict_tsu_nonneg (tr : KTrack α) (h : (0 : ℤ) ≤ tr.timeSinceUpdate) :
    (0 : ℤ) ≤ tr.predict.timeSinceUpdate := by
  show (0 : ℤ) ≤ tr.timeSinceUpdate + 1
  omega

/-- `applyWarp` does not change `time_since_update`. -/
theorem applyWarp_tsu (no : NumOps α) (tr : KTrack α) (M : Mat3T α) (w h : ℤ) :
    (tr.applyWarp no M w h).timeSinceUpdate = tr.timeSinceUpdate := by
  unfold KTrack.applyWarp
  split
  · rfl
  · rfl

/-- An observation update resets `time_since_update` to zero. -/
theorem update_some_tsu (no : NumOps α) (tr : KTrack α) (d : DetectionT α) :
    (tr.update no (some d)).timeSinceUpdate = 0 := rfl

/-- A no-observation update does not change `time_since_update`. -/
theorem update_none_tsu (no : NumOps α) (tr : KTrack α) :
    (tr.update no none).timeSinceUpdate = tr.timeSinceUpdate := rfl

/-- `update` preserves nonnegativity of `time_since_update`. -/
theorem update_tsu_nonneg (no : NumOps α) (tr : KTrack α) (od : Option (DetectionT α))
    (h : (0 : ℤ) ≤ tr.timeSinceUpdate) : (0 : ℤ) ≤ (tr.update no od).timeSinceUpdate := by
  cases od with
  | none => rw [update_none_tsu]; exact h
  | some d => rw [update_some_tsu]

/-- `updAt` preserves a pointwise property closed under the map. -/
theorem updAt_forall {Q : KTrack α → Prop} {ts : List (KTrack α)} {i : ℕ}
    {f : KTrack α → KTrack α} (hts : ∀ x ∈ ts, Q x) (hf : ∀ x ∈ ts, Q (f x)) :
    ∀ x ∈ updAt ts i f, Q x := by
  unfold updAt
  cases h : ts.get? i with
  | none => exact hts
  | some tr =>
    intro x hx
    rcases List.mem_or_eq_of_mem_set hx with h1 | h2
    · exact hts x h1
    · exact h2 ▸ hf tr (List.get?_mem h)

/-- After an `OCSort::update`, every surviving tracker has nonnegative
`time_since_update`. -/
theorem ocsortUpdate_trackers_tsu (no : NumOps α) (p : OCParams α) (st : OCState α)
    (dets : List (DetectionT α)) (returnAll : Bool) (warp : Option (Mat3T α)) (w h : ℤ)
    (hst : ∀ tr ∈ st.trackers, (0 : ℤ) ≤ tr.timeSinceUpdate) :
    ∀ tr ∈ (ocsortUpdate no p st dets returnAll warp w h).state.trackers,
      (0 : ℤ) ≤ tr.timeSinceUpdate := by
  have h1 : ∀ tr ∈ st.trackers.map KTrack.predict, (0 : ℤ) ≤ tr.timeSinceUpdate := by
    intro tr htr
    obtain ⟨u, hu, rfl⟩ := List.mem_map.mp htr
    exact predict_tsu_nonneg u (hst u hu)
  have h2 : ∀ ts1 : List (KTrack α),
      (∀ tr ∈ ts1, (0 : ℤ) ≤ tr.timeSinceUpdate) →
      ∀ tr ∈ ((match warp with
        | some M => if 0 < w ∧ 0 < h then ts1.map (fun tr : KTrack α => tr.applyWarp no M w h) else ts1
        | none => ts1 : List (KTrack α))),
        (0 : ℤ) ≤ tr.timeSinceUpdate := by
    intro ts1 hts1
    cases warp with
    | none => exact hts1
    | some M =>
      intro tr htr
      dsimp only at htr
      by_cases hwh : 0 < w ∧ 0 < h
      · rw [if_pos hwh] at htr
        obtain ⟨u, hu, rfl⟩ := List.mem_map.mp htr
        rw [applyWarp_tsu]
        exact hts1 u hu
      · rw [if_neg hwh] at htr
        exact hts1 tr htr
  have hupdfold : ∀ (prs : List (ℕ × ℕ)) (ts : List (KTrack α)),
      (∀ tr ∈ ts, (0 : ℤ) ≤ tr.timeSinceUpdate) →
      ∀ tr ∈ prs.foldl
        (fun (ts : List (KTrack α)) (pr : ℕ × ℕ) =>
          updAt ts pr.2 (fun tr => tr.update no (some (dets.getD pr.1 defaultDetection))))
        ts, (0 : ℤ) ≤ tr.timeSinceUpdate := by
    intro prs ts hts
    refine foldl_forall_mem hts ?_
    intro acc pr _ hacc
    exact updAt_forall hacc (fun x hx => update_tsu_nonneg no x _ (hacc x hx))
  have hnonefold : ∀ (is : List ℕ) (ts : List (KTrack α)),
      (∀ tr ∈ ts, (0 : ℤ) ≤ tr.timeSinceUpdate) →
      ∀ tr ∈ is.foldl
        (fun (ts : List (KTrack α)) (tIdx : ℕ) => updAt ts tIdx (fun tr => tr.update no none)) ts,
        (0 : ℤ) ≤ tr.timeSinceUpdate := by
    intro is ts hts
    refine foldl_forall_mem hts ?_
    intro acc i _ hacc
    exact updAt_forall hacc (fun x hx => update_tsu_nonneg no x none (hacc x hx))
  have hspawn : ∀ (is : List ℕ) (ts : List (KTrack α)) (n : ℤ),
      (∀ tr ∈ ts, (0 : ℤ) ≤ tr.timeSinceUpdate) →
      ∀ tr ∈ (is.foldl
          (fun acc dIdx =>
            (acc.1 ++ [KTrack.init no (dets.getD dIdx defaultDetection) acc.2 p.deltaT],
              acc.2 + 1))
          (ts, n)).1, (0 : ℤ) ≤ tr.timeSinceUpdate := by
    intro is
    induction is with
    | nil => intro ts n hts; exact hts
    | cons i is ihs =>
      intro ts n hts
      rw [List.foldl_cons]
      refine ihs _ _ ?_
      intro tr htr
      rcases List.mem_append.mp htr with hl | hr
      · exact hts tr hl
      · have : tr = KTrack.init no (dets.getD i defaultDetection) n p.deltaT := by simpa using hr
        rw [this]
        exact le_refl 0
  intro tr htr
  unfold ocsortUpdate at htr
  dsimp only at htr
  have htr2 := (List.mem_filter.mp htr).1
  refine hspawn _ _ _ ?_ tr htr2
  intro u hu
  refine hnonefold _ _ ?_ u hu
  intro v hv
  refine hupdfold _ _ ?_ v hv
  intro q hq
  refine hupdfold _ _ ?_ q hq
  exact h2 _ h1

set_option maxHeartbeats 1000000 in
/-- C4: a track is emitted by `OCSort::update` exactly when it is
confirmed (`hit_streak ≥ min_hits` in default mode, `hits ≥ min_hits`
with `return_all`, or the engine within its first `min_hits` frames) and
passes the mode gate (`time_since_update == 0` unless `return_all`). -/
theorem ocsort_emission_characterization (no : NumOps α) (p : OCParams α) (st : OCState α)
    (dets : List (DetectionT α)) (returnAll : Bool) (warp : Option (Mat3T α)) (w h : ℤ)
    (hst : ∀ tr ∈ st.trackers, (0 : ℤ) ≤ tr.timeSinceUpdate) :
    (ocsortUpdate no p st dets returnAll warp w h).results =
      ((ocsortUpdate no p st dets returnAll warp w h).state.trackers.filter
        (specEmits p returnAll (st.frameCount + 1))).map
        (fun tr => (tr.trackId, mkEmitResult no tr)) := by
  have hkept := ocsortUpdate_trackers_tsu no p st dets returnAll warp w h hst
  exact emitFold_eq no p returnAll (st.frameCount + 1)
    ((ocsortUpdate no p st dets returnAll warp w h).state.trackers) hkept []

set_option maxRecDepth 100000 in
unseal Rat.mul Rat.inv Rat.add Rat.sub in
/-- C4 witness: a concrete single-detection frame on an empty engine. -/
theorem ocsort_emission_characterization_witness :
    (ocsortUpdate qOps ⟨3 / 20, 30, 3, 3, 1 / 5, false, 7 / 20, 7 / 20⟩ ⟨[], 0, 0, []⟩
        [demoGapDet0] true none 0 0).results =
      ((ocsortUpdate qOps ⟨3 / 20, 30, 3, 3, 1 / 5, false, 7 / 20, 7 / 20⟩ ⟨[], 0, 0, []⟩
          [demoGapDet0] true none 0 0).state.trackers.filter
        (specEmits ⟨3 / 20, 30, 3, 3, 1 / 5, false, 7 / 20, 7 / 20⟩ true 1)).map
        (fun tr => (tr.trackId, mkEmitResult qOps tr)) :=
  ocsort_emission_characterization qOps ⟨3 / 20, 30, 3, 3, 1 / 5, false, 7 / 20, 7 / 20⟩
    ⟨[], 0, 0, []⟩ [demoGapDet0] true none 0 0 (by decide)

end ClaimC4

section ClaimC5

variable {α : Type*} [LinearOrderedField α]

/-- `getD` with an in-range index is `get`. -/
theorem getD_fin (l : List (List α × α)) : ∀ (n : ℕ) (hn : n < l.length),
    l.getD n ([], 0) = l.get ⟨n, hn⟩ := by
  induction l with
  | nil => intro n hn; exact absurd hn (Nat.not_lt_zero _)
  | cons q rest ih =>
    intro n hn
    cases n with
    | zero => rfl
    | succ m => exact ih m (Nat.lt_of_succ_lt_succ hn)

/-- The worst-entry scan of `worstBankIdx`: the fold keeps the running
minimum quality, so its result is the accumulator or a later position,
and its value is a lower bound of the accumulator and every scanned
entry. -/
theorem worstStep_fold (l : List (List α × α)) : ∀ (k : ℕ) (acc : ℕ × α),
    ((List.enumFrom k l).foldl worstStep acc).2 ≤ acc.2 ∧
    (∀ p ∈ l, ((List.enumFrom k l).foldl worstStep acc).2 ≤ p.2) ∧
    ((List.enumFrom k l).foldl worstStep acc = acc ∨
      ∃ j : Fin l.length,
        (List.enumFrom k l).foldl worstStep acc = (k + j.1 + 1, (l.get j).2)) := by
  induction l with
  | nil =>
    intro k acc
    refine ⟨le_refl _, ?_, Or.inl rfl⟩
    intro p hp
    exact absurd hp (List.not_mem_nil p)
  | cons q rest ih =>
    intro k acc
    have hstep : (List.enumFrom k (q :: rest)).foldl worstStep acc =
        (List.enumFrom (k + 1) rest).foldl worstStep (worstStep acc (k, q)) := rfl
    rw [hstep]
    obtain ⟨h1, h2, h3⟩ := ih (k + 1) (worstStep acc (k, q))
    by_cases hq : q.2 < acc.2
    · have hw : worstStep acc (k, q) = (k + 1, q.2) := by
        simp only [worstStep]
        rw [if_pos hq]
      rw [hw] at h1 h2 h3 ⊢
      refine ⟨h1.trans (le_of_lt hq), ?_, ?_⟩
      · intro p hp
        rcases List.mem_cons.mp hp with rfl | hpr
        · exact h1
        · exact h2 p hpr
      · rcases h3 with h3 | ⟨j, hj⟩
        · exact Or.inr ⟨⟨0, Nat.succ_pos _⟩, h3⟩
        · refine Or.inr ⟨⟨j.1 + 1, Nat.succ_lt_succ j.2⟩, ?_⟩
          rw [hj]
          have hk : k + 1 + j.1 + 1 = k + (j.1 + 1) + 1 := by omega
          rw [hk]
          exact rfl
    · have hw : worstStep acc (k, q) = acc := by
        simp only [worstStep]
        rw [if_neg hq]
      rw [hw] at h1 h2 h3 ⊢
      refine ⟨h1, ?_, ?_⟩
      · intro p hp
        rcases List.mem_cons.mp hp with rfl | hpr
        · exact h1.trans (not_lt.mp hq)
        · exact h2 p hpr
      · rcases h3 with h3 | ⟨j, hj⟩
        · exact Or.inl h3
        · refine Or.inr ⟨⟨j.1 + 1, Nat.succ_lt_succ j.2⟩, ?_⟩
          rw [hj]
          have hk : k + 1 + j.1 + 1 = k + (j.1 + 1) + 1 := by omega
          rw [hk]
          exact rfl

/-- `worstBankIdx` points at an in-range entry of minimal quality. -/
theorem worstBankIdx_spec (bank : List (List α × α)) (hne : bank ≠ []) :
    worstBankIdx bank < bank.length ∧
      bank.getD (worstBankIdx bank) ([], 0) ∈ bank ∧
      ∀ p ∈ bank, (bank.getD (worstBankIdx bank) ([], 0)).2 ≤ p.2 := by
  cases bank with
  | nil => exact absurd rfl hne
  | cons p0 rest =>
    have hwb : worstBankIdx (p0 :: rest) =
        ((List.enumFrom 0 rest).foldl worstStep (0, p0.2)).1 := rfl
    obtain ⟨h1, h2, h3⟩ := worstStep_fold rest 0 (0, p0.2)
    rcases h3 with h3 | ⟨j, hj⟩
    · rw [hwb, h3]
      dsimp only
      have hval : (p0 :: rest).getD 0 ([], 0) = p0 := rfl
      rw [hval]
      refine ⟨Nat.succ_pos _, List.mem_cons_self p0 rest, ?_⟩
      intro p hp
      rcases List.mem_cons.mp hp with rfl | hpr
      · exact le_refl _
      · have h2p := h2 p hpr
        rw [h3] at h2p
        exact h2p
    · rw [hwb, hj]
      dsimp only
      have hj2 : j.1 < rest.length := j.2
      have hidx : (0 : ℕ) + j.1 + 1 = j.1 + 1 := by omega
      rw [hidx]
      have hval : (p0 :: rest).getD (j.1 + 1) ([], 0) = rest.get j := getD_fin rest j.1 j.2
      rw [hval]
      refine ⟨?_, List.mem_cons_of_mem p0 (List.get_mem rest j.1 j.2), ?_⟩
      · show j.1 + 1 < rest.length + 1
        omega
      · intro p hp
        rcases List.mem_cons.mp hp with rfl | hpr
        · have h1j := h1
          rw [hj] at h1j
          exact h1j
        · have h2p := h2 p hpr
          rw [hj] at h2p
          exact h2p

/-- Replacing an in-range bank entry replaces exactly one occurrence of
its quality in the quality multiset. -/
theorem map_snd_set (l : List (List α × α)) : ∀ (i : ℕ), i < l.length →
    ∀ (p : List α × α),
      (((l.set i p).map (fun x => x.2) : List α) : Multiset α) =
        p.2 ::ₘ (((l.map (fun x => x.2) : List α) : Multiset α)).erase
          ((l.getD i ([], 0)).2) := by
  induction l with
  | nil => intro i hi; exact absurd hi (Nat.not_lt_zero _)
  | cons q rest ih =>
    intro i hi p
    cases i with
    | zero =>
      show ((p.2 :: rest.map (fun x => x.2) : List α) : Multiset α) =
        p.2 ::ₘ (((q.2 :: rest.map (fun x => x.2) : List α) : Multiset α)).erase q.2
      have hc : ((q.2 :: rest.map (fun x => x.2) : List α) : Multiset α) =
          q.2 ::ₘ ((rest.map (fun x => x.2) : List α) : Multiset α) := rfl
      rw [hc, Multiset.erase_cons_head]
      exact rfl
    | succ n =>
      have hn : n < rest.length := Nat.lt_of_succ_lt_succ hi
      show q.2 ::ₘ (((rest.set n p).map (fun x => x.2) : List α) : Multiset α) =
        p.2 ::ₘ (((q.2 :: rest.map (fun x => x.2) : List α) : Multiset α)).erase
          ((rest.getD n ([], 0)).2)
      have hc : ((q.2 :: rest.map (fun x => x.2) : List α) : Multiset α) =
          q.2 ::ₘ ((rest.map (fun x => x.2) : List α) : Multiset α) := rfl
      rw [hc]
      have hwM : (rest.getD n ([], 0)).2 ∈
          ((rest.map (fun x => x.2) : List α) : Multiset α) := by
        rw [getD_fin rest n hn]
        exact Multiset.mem_coe.mpr (List.mem_map_of_mem (fun x => x.2) (List.get_mem rest n hn))
      have hkey : q.2 ::ₘ (((rest.map (fun x => x.2) : List α) : Multiset α)).erase
            ((rest.getD n ([], 0)).2) =
          (q.2 ::ₘ ((rest.map (fun x => x.2) : List α) : Multiset α)).erase
            ((rest.getD n ([], 0)).2) := by
        have h1 : (rest.getD n ([], 0)).2 ::ₘ
            (q.2 ::ₘ (((rest.map (fun x => x.2) : List α) : Multiset α)).erase
              ((rest.getD n ([], 0)).2)) =
            (rest.getD n ([], 0)).2 ::ₘ
            ((q.2 ::ₘ ((rest.map (fun x => x.2) : List α) : Multiset α)).erase
              ((rest.getD n ([], 0)).2)) := by
          rw [Multiset.cons_swap, Multiset.cons_erase hwM,
            Multiset.cons_erase (Multiset.mem_cons_of_mem hwM)]
        exact (Multiset.cons_inj_right _).mp h1
      rw [ih n hn p, Multiset.cons_swap, hkey]

/-- `maybeRunORU` never touches the appearance bank. -/
theorem maybeRunORU_bankState (no : NumOps α) (tr : KTrack α) (cur : MeasT α) :
    (maybeRunORU no tr cur).bankState = tr.bankState := by
  unfold maybeRunORU
  cases hsx : tr.oruSavedX with
  | none => rfl
  | some sx =>
    cases hsP : tr.oruSavedP with
    | none => rfl
    | some sP =>
      cases hft : findLastTwo tr.oruHistory with
      | none => rfl
      | some pr =>
        obtain ⟨i1, i2⟩ := pr
        dsimp only
        by_cases hgap : i2 - i1 < 2
        · rw [if_pos hgap]
        · rw [if_neg hgap]
          cases hpm : tr.oruHistory.getD i1 none with
          | none => rfl
          | some pm => rfl

/-- The observation branch of `update` rewrites the appearance bank by
exactly one `bankStep` on the offered detection. -/
theorem update_some_bank (no : NumOps α) (tr : KTrack α) (d : DetectionT α) :
    (tr.update no (some d)).bankState = bankStep no tr.bankState d := by
  unfold KTrack.update
  dsimp only
  cases hobs : tr.oruObserved with
  | true =>
    simp only [reduceIte]
    cases hlo : tr.lastObservation with
    | none => rfl
    | some lo =>
      dsimp only
      by_cases hsc : (0 : α) ≤ lo.score
      · rw [if_pos hsc]
      · rw [if_neg hsc]
  | false =>
    simp only [Bool.false_eq_true, reduceIte]
    have hbank := maybeRunORU_bankState no
      { tr with
          oruHistory := tr.oruHistory ++ [some (bboxToMeasurement d.bbox)],
          oruObserved := false }
      (bboxToMeasurement d.bbox)
    set tr2 := maybeRunORU no
      { tr with
          oruHistory := tr.oruHistory ++ [some (bboxToMeasurement d.bbox)],
          oruObserved := false }
      (bboxToMeasurement d.bbox) with htr2
    cases hlo : tr2.lastObservation with
    | none =>
      show bankStep no tr2.bankState d = bankStep no tr.bankState d
      rw [hbank]
    | some lo =>
      dsimp only
      by_cases hsc : (0 : α) ≤ lo.score
      · rw [if_pos hsc]
        show bankStep no tr2.bankState d = bankStep no tr.bankState d
        rw [hbank]
      · rw [if_neg hsc]
        show bankStep no tr2.bankState d = bankStep no tr.bankState d
        rw [hbank]

/-- One `bankStep` keeps the bank a top-5 selection when the eligible
pool grows by the offer's contribution, and a nonempty bank always has a
published appearance. -/
theorem bankStep_topk (no : NumOps α) (bs : BankState α) (d : DetectionT α) (E : Multiset α)
    (htop : isTopK 5 (bankQuals bs) E)
    (happ : bs.bank ≠ [] → bs.hasAppearance = true) :
    isTopK 5 (bankQuals (bankStep no bs d)) (E + eligOne d) ∧
      ((bankStep no bs d).bank ≠ [] → (bankStep no bs d).hasAppearance = true) := by
  obtain ⟨hle, hcard, hdom⟩ := htop
  have hlenq : Multiset.card (bankQuals bs) = bs.bank.length := by
    simp [bankQuals]
  by_cases hgate : d.hasReid = true ∧ 2 / 5 ≤ max 0 d.reidQuality
  · obtain ⟨hr, hq⟩ := hgate
    have he : eligOne d = {max 0 d.reidQuality} := by
      unfold eligOne
      rw [if_pos ⟨hr, hq⟩]
    rw [he]
    unfold bankStep
    rw [if_pos hr]
    dsimp only
    rw [if_pos hq]
    by_cases hlen : bs.bank.length < 5
    · rw [if_pos hlen]
      dsimp only
      have hbw : bankWrite bs.bank bs.bank.length (l2normalize no d.reid, max 0 d.reidQuality) =
          bs.bank ++ [(l2normalize no d.reid, max 0 d.reidQuality)] := by
        unfold bankWrite
        rw [if_pos rfl]
      rw [hbw]
      have hBE : bankQuals bs = E := by
        refine Multiset.eq_of_le_of_card_le hle ?_
        omega
      refine ⟨?_, fun _ => rfl⟩
      have hq2 : bankQuals (⟨bs.bank ++ [(l2normalize no d.reid, max 0 d.reidQuality)],
          bankProto no (bs.bank ++ [(l2normalize no d.reid, max 0 d.reidQuality)]),
          true⟩ : BankState α) =
          bankQuals bs + {max 0 d.reidQuality} := by
        show (((bs.bank ++ [(l2normalize no d.reid, max 0 d.reidQuality)]).map
            (fun p => p.2) : List α) : Multiset α) = _
        rw [List.map_append]
        rfl
      rw [hq2, hBE]
      refine ⟨le_refl _, ?_, ?_⟩
      · rw [Multiset.card_add, Multiset.card_singleton]
        rw [← hBE, hlenq]
        omega
      · intro a ha
        rw [tsub_self] at ha
        exact absurd ha (Multiset.not_mem_zero a)
    · rw [if_neg hlen]
      have hne : bs.bank ≠ [] := by
        intro h
        rw [h] at hlen
        simp at hlen
      obtain ⟨hwlt, hwmem, hwmin⟩ := worstBankIdx_spec bs.bank hne
      have hwB : (bs.bank.getD (worstBankIdx bs.bank) ([], 0)).2 ∈ bankQuals bs :=
        Multiset.mem_coe.mpr (List.mem_map_of_mem (fun p => p.2) hwmem)
      by_cases himp : (bs.bank.getD (worstBankIdx bs.bank) ([], 0)).2 < max 0 d.reidQuality
      · rw [if_pos himp]
        dsimp only
        have hbw : bankWrite bs.bank (worstBankIdx bs.bank)
            (l2normalize no d.reid, max 0 d.reidQuality) =
            bs.bank.set (worstBankIdx bs.bank) (l2normalize no d.reid, max 0 d.reidQuality) := by
          unfold bankWrite
          rw [if_neg (Nat.ne_of_lt hwlt)]
        rw [hbw]
        refine ⟨?_, fun _ => rfl⟩
        have hq3 : bankQuals (⟨bs.bank.set (worstBankIdx bs.bank)
              (l2normalize no d.reid, max 0 d.reidQuality),
            bankProto no (bs.bank.set (worstBankIdx bs.bank)
              (l2normalize no d.reid, max 0 d.reidQuality)), true⟩ : BankState α) =
            max 0 d.reidQuality ::ₘ
              (bankQuals bs).erase ((bs.bank.getD (worstBankIdx bs.bank) ([], 0)).2) := by
          show (((bs.bank.set (worstBankIdx bs.bank)
              (l2normalize no d.reid, max 0 d.reidQuality)).map
              (fun p => p.2) : List α) : Multiset α) = _
          rw [map_snd_set bs.bank (worstBankIdx bs.bank) hwlt
            (l2normalize no d.reid, max 0 d.reidQuality)]
          rfl
        rw [hq3]
        have hEq : E + {max 0 d.reidQuality} = max 0 d.reidQuality ::ₘ E := by
          rw [add_comm, Multiset.singleton_add]
        rw [hEq]
        refine ⟨?_, ?_, ?_⟩
        · exact Multiset.cons_le_cons _ ((Multiset.erase_le _ _).trans hle)
        · simp only [Multiset.card_cons, Multiset.card_erase_of_mem hwB,
            Nat.pred_eq_sub_one]
          omega
        · intro a ha b hb
          have hsub : (max 0 d.reidQuality ::ₘ E) -
              (max 0 d.reidQuality ::ₘ (bankQuals bs).erase
                ((bs.bank.getD (worstBankIdx bs.bank) ([], 0)).2)) =
              (E - bankQuals bs) + {(bs.bank.getD (worstBankIdx bs.bank) ([], 0)).2} := by
            rw [Multiset.ext]
            intro x
            rw [Multiset.count_sub, Multiset.count_add, Multiset.count_sub,
              Multiset.count_cons, Multiset.count_cons, Multiset.count_singleton]
            have hcle := Multiset.count_le_of_le x hle
            have hcw : 0 < Multiset.count ((bs.bank.getD (worstBankIdx bs.bank) ([], 0)).2)
                (bankQuals bs) := Multiset.count_pos.mpr hwB
            by_cases hxw : x = (bs.bank.getD (worstBankIdx bs.bank) ([], 0)).2
            · by_cases hxq : x = max 0 d.reidQuality
              · subst hxw
                rw [Multiset.count_erase_self, if_pos rfl, if_pos hxq]
                omega
              · subst hxw
                rw [Multiset.count_erase_self, if_pos rfl, if_neg hxq]
                omega
            · rw [Multiset.count_erase_of_ne hxw, if_neg hxw]
              by_cases hxq : x = max 0 d.reidQuality
              · rw [if_pos hxq]
                omega
              · rw [if_neg hxq]
                omega
          rw [hsub] at ha
          rcases Multiset.mem_add.mp ha with haEB | haw
          · rcases Multiset.mem_cons.mp hb with rfl | hbB
            · exact le_of_lt (lt_of_le_of_lt (hdom a haEB _ hwB) himp)
            · exact hdom a haEB b (Multiset.mem_of_mem_erase hbB)
          · have haw2 := Multiset.mem_singleton.mp haw
            rcases Multiset.mem_cons.mp hb with rfl | hbB
            · rw [haw2]
              exact le_of_lt himp
            · have hbB2 := Multiset.mem_of_mem_erase hbB
              obtain ⟨p, hp, hpb⟩ := List.mem_map.mp (Multiset.mem_coe.mp hbB2)
              rw [haw2, ← hpb]
              exact hwmin p hp
      · rw [if_neg himp]
        dsimp only
        rw [if_pos (happ hne)]
        refine ⟨⟨?_, ?_, ?_⟩, happ⟩
        · exact hle.trans (self_le_add_right E {max 0 d.reidQuality})
        · rw [Multiset.card_add, Multiset.card_singleton]
          omega
        · intro a ha b hb
          have hsub2 : (E + {max 0 d.reidQuality}) - bankQuals bs =
              (E - bankQuals bs) + {max 0 d.reidQuality} := by
            rw [Multiset.ext]
            intro x
            rw [Multiset.count_sub, Multiset.count_add, Multiset.count_add,
              Multiset.count_sub, Multiset.count_singleton]
            have hcle := Multiset.count_le_of_le x hle
            by_cases hxq : x = max 0 d.reidQuality
            · rw [if_pos hxq]
              omega
            · rw [if_neg hxq]
              omega
          rw [hsub2] at ha
          rcases Multiset.mem_add.mp ha with haEB | haq
          · exact hdom a haEB b hb
          · have haq2 := Multiset.mem_singleton.mp haq
            obtain ⟨p, hp, hpb⟩ := List.mem_map.mp (Multiset.mem_coe.mp hb)
            rw [haq2, ← hpb]
            exact le_trans (not_lt.mp himp) (hwmin p hp)
  · have he : eligOne d = 0 := by
      unfold eligOne
      rw [if_neg hgate]
    have hb : bankStep no bs d = bs := by
      unfold bankStep
      by_cases hr : d.hasReid = true
      · rw [if_pos hr]
        dsimp only
        rw [if_neg (fun hq => hgate ⟨hr, hq⟩)]
      · rw [if_neg hr]
    rw [he, hb, add_zero]
    exact ⟨⟨hle, hcard, hdom⟩, happ⟩

/-- The multiset of eligible qualities splits off the head offer. -/
theorem eligQuals_cons_some (d : DetectionT α) (rest : List (Option (DetectionT α))) :
    ((eligibleQuals (some d :: rest) : List α) : Multiset α) =
      eligOne d + ((eligibleQuals rest : List α) : Multiset α) := by
  unfold eligibleQuals eligOne
  rw [List.filterMap_cons]
  dsimp only
  by_cases hg : d.hasReid = true ∧ 2 / 5 ≤ max 0 d.reidQuality
  · rw [if_pos hg, if_pos hg]
    rfl
  · rw [if_neg hg, if_neg hg]
    rfl

/-- A `none` offer contributes no eligible quality. -/
theorem eligQuals_cons_none (rest : List (Option (DetectionT α))) :
    eligibleQuals (none :: rest) = eligibleQuals rest := rfl

/-- Every eligible quality meets the `0.40` gate. -/
theorem eligQuals_ge (seq : List (Option (DetectionT α))) :
    ∀ a ∈ eligibleQuals seq, 2 / 5 ≤ a := by
  intro a ha
  unfold eligibleQuals at ha
  obtain ⟨od, hod, hfa⟩ := List.mem_filterMap.mp ha
  cases od with
  | none => exact Option.noConfusion hfa
  | some d =>
    dsimp only at hfa
    by_cases hg : d.hasReid = true ∧ 2 / 5 ≤ max 0 d.reidQuality
    · rw [if_pos hg] at hfa
      rw [← Option.some.inj hfa]
      exact hg.2
    · rw [if_neg hg] at hfa
      exact Option.noConfusion hfa

/-- The constructor's quality gate coincides with the clamped gate. -/
theorem gate_max_iff (x : α) : 2 / 5 ≤ max 0 x ↔ 2 / 5 ≤ x := by
  rw [le_max_iff]
  constructor
  · rintro (h | h)
    · exact absurd h (not_le.mpr (by norm_num))
    · exact h
  · exact Or.inr

/-- The constructor's bank is a top-5 selection of the first offer's
contribution. -/
theorem init_bank_topk (no : NumOps α) (d0 : DetectionT α) (trackId deltaT : ℤ) :
    isTopK 5 (bankQuals (KTrack.init no d0 trackId deltaT).bankState) (eligOne d0) ∧
      ((KTrack.init no d0 trackId deltaT).bankState.bank ≠ [] →
        (KTrack.init no d0 trackId deltaT).bankState.hasAppearance = true) := by
  unfold KTrack.init eligOne
  dsimp only
  by_cases hg0 : d0.hasReid = true ∧ 2 / 5 ≤ d0.reidQuality
  · rw [if_pos hg0, if_pos ⟨hg0.1, (gate_max_iff d0.reidQuality).mpr hg0.2⟩]
    refine ⟨⟨le_refl _, rfl, ?_⟩, fun _ => rfl⟩
    intro a ha
    have ha2 : a ∈ ({max 0 d0.reidQuality} : Multiset α) - {max 0 d0.reidQuality} := ha
    rw [tsub_self] at ha2
    exact absurd ha2 (Multiset.not_mem_zero a)
  · rw [if_neg hg0, if_neg (fun h => hg0 ⟨h.1, (gate_max_iff d0.reidQuality).mp h.2⟩)]
    refine ⟨⟨le_refl _, rfl, ?_⟩, fun h => absurd rfl h⟩
    intro a ha
    exact absurd ha (Multiset.not_mem_zero a)

/-- Folding `update` over a sequence of offers preserves the top-5
property while the eligible pool grows by the offers' contributions. -/
theorem bank_topk_fold (no : NumOps α) (seq : List (Option (DetectionT α))) :
    ∀ (tr : KTrack α) (E : Multiset α),
      isTopK 5 (bankQuals tr.bankState) E →
      (tr.bankState.bank ≠ [] → tr.bankState.hasAppearance = true) →
      isTopK 5 (bankQuals ((seq.foldl (fun t od => t.update no od) tr).bankState))
          (E + ((eligibleQuals seq : List α) : Multiset α)) ∧
        (((seq.foldl (fun t od => t.update no od) tr).bankState.bank ≠ [] →
          ((seq.foldl (fun t od => t.update no od) tr).bankState.hasAppearance = true))) := by
  induction seq with
  | nil =>
    intro tr E h1 h2
    refine ⟨?_, h2⟩
    have h0 : E + ((eligibleQuals ([] : List (Option (DetectionT α))) : List α) : Multiset α) =
        E := by
      show E + 0 = E
      rw [add_zero]
    rw [h0]
    exact h1
  | cons od rest ih =>
    intro tr E h1 h2
    cases od with
    | none =>
      have hfold : ((none :: rest).foldl (fun t od => t.update no od) tr) =
          rest.foldl (fun t od => t.update no od) (tr.update no none) := rfl
      rw [hfold, eligQuals_cons_none rest]
      exact ih (tr.update no none) E h1 h2
    | some d =>
      have hstep := bankStep_topk no tr.bankState d E h1 h2
      have hup : (tr.update no (some d)).bankState = bankStep no tr.bankState d :=
        update_some_bank no tr d
      have hfold : ((some d :: rest).foldl (fun t od => t.update no od) tr) =
          rest.foldl (fun t od => t.update no od) (tr.update no (some d)) := rfl
      rw [hfold, eligQuals_cons_some d rest, ← add_assoc]
      exact ih (tr.update no (some d)) (E + eligOne d)
        (by rw [hup]; exact hstep.1) (by rw [hup]; exact hstep.2)

/-- C5: starting from the constructor and after any sequence of `update`
calls with optional detections, the appearance bank's qualities are a
top-5 selection of the eligible offers (re-id detections whose clamped
quality meets the `0.40` gate), and every quality held in the bank is at
least `0.40` — a sub-gate detection never enters the bank. -/
theorem appearance_bank_topk (no : NumOps α) (d0 : DetectionT α) (trackId deltaT : ℤ)
    (seq : List (Option (DetectionT α))) :
    isTopK 5
        (bankQuals ((seq.foldl (fun t od => t.update no od)
          (KTrack.init no d0 trackId deltaT)).bankState))
        ((eligibleQuals (some d0 :: seq) : List α) : Multiset α) ∧
      ∀ a ∈ bankQuals ((seq.foldl (fun t od => t.update no od)
          (KTrack.init no d0 trackId deltaT)).bankState), 2 / 5 ≤ a := by
  obtain ⟨hi1, hi2⟩ := init_bank_topk no d0 trackId deltaT
  have hmain := bank_topk_fold no seq (KTrack.init no d0 trackId deltaT) (eligOne d0) hi1 hi2
  constructor
  · rw [eligQuals_cons_some d0 seq]
    exact hmain.1
  · intro a ha
    have haE := Multiset.mem_of_le hmain.1.1 ha
    rw [← eligQuals_cons_some d0 seq] at haE
    exact eligQuals_ge (some d0 :: seq) a (Multiset.mem_coe.mp haE)

set_option maxRecDepth 100000 in
unseal Rat.mul Rat.inv Rat.add Rat.sub in
/-- C5 witness: a single eligible offer of quality `0.70` sits in the
bank and meets the gate. -/
theorem appearance_bank_topk_witness :
    (7 / 10 : ℚ) ∈ bankQuals ((([] : List (Option (DetectionT ℚ))).foldl
        (fun t od => t.update qOps od) (KTrack.init qOps demoReidDet 0 3)).bankState) ∧
      (2 : ℚ) / 5 ≤ 7 / 10 :=
  ⟨by decide, (appearance_bank_topk qOps demoReidDet 0 3 []).2 (7 / 10) (by decide)⟩

end ClaimC5

section ClaimC6

/-- C6 counterexample: with a zero detection score the OCM term vanishes
for every direction, so the aligned candidate (dot `1` with the stored
velocity direction) is not strictly above the opposite candidate (dot
`-1`) even at identical IoU and identical score. -/
theorem ocm_strictness_cex :
    ¬ ((0 : ℝ) + ocmAngleCost realOps 1 (0, 1) (0, -1) 0 <
        0 + ocmAngleCost realOps 1 (0, 1) (0, 1) 0) := by
  simp [ocmAngleCost]

/-- C6 (amended): with strictly positive OCM inertia and detection
score, at identical IoU and identical score the candidate whose unit
direction is aligned with the stored velocity direction (dot `1`)
receives a strictly higher combined score than the candidate whose
direction is opposite (dot `-1`). -/
theorem ocm_monotonicity (inertia score iou : ℝ) (vdir dirA dirB : ℝ × ℝ)
    (hin : 0 < inertia) (hsc : 0 < score)
    (hA : vdir.2 * dirA.2 + vdir.1 * dirA.1 = 1)
    (hB : vdir.2 * dirB.2 + vdir.1 * dirB.1 = -1) :
    iou + ocmAngleCost realOps inertia vdir dirB score <
      iou + ocmAngleCost realOps inertia vdir dirA score := by
  have hclampA : clampT ((1 : ℝ)) (-1) 1 = 1 := by
    unfold clampT
    rw [min_self, max_eq_right (by norm_num : (-1 : ℝ) ≤ 1)]
  have hclampB : clampT ((-1 : ℝ)) (-1) 1 = -1 := by
    unfold clampT
    rw [min_eq_right (by norm_num : (-1 : ℝ) ≤ 1), max_self]
  have hdiff : (Real.pi / 2 - |Real.pi|) / Real.pi <
      (Real.pi / 2 - |(0 : ℝ)|) / Real.pi := by
    rw [abs_of_pos Real.pi_pos, abs_zero]
    exact (div_lt_div_iff_of_pos_right Real.pi_pos).mpr (by linarith [Real.pi_pos])
  simp only [ocmAngleCost, realOps]
  rw [hA, hB, hclampA, hclampB, Real.arccos_one, Real.arccos_neg_one]
  exact add_lt_add_left (mul_lt_mul_of_pos_right (mul_lt_mul_of_pos_right hdiff hin) hsc) iou

/-- C6 witness: unit inertia and score, zero IoU, aligned `(0, 1)` versus
opposite `(0, -1)` against a stored direction `(0, 1)`. -/
theorem ocm_monotonicity_witness :
    (0 : ℝ) + ocmAngleCost realOps 1 (0, 1) (0, -1) 1 <
      0 + ocmAngleCost realOps 1 (0, 1) (0, 1) 1 :=
  ocm_monotonicity 1 1 0 (0, 1) (0, 1) (0, -1) one_pos one_pos (by simp) (by simp)

end ClaimC6

section ClaimC3

variable {α : Type*} [LinearOrderedField α]

/-- Writing inside the range and reading back gives the written value. -/
theorem getD_set_self {β : Type*} (d : β) :
    ∀ (l : List β) (n : ℕ) (a : β), n < l.length → (l.set n a).getD n d = a := by
  intro l
  induction l with
  | nil => intro n a hn; exact absurd hn (Nat.not_lt_zero _)
  | cons x xs ih =>
    intro n a hn
    cases n with
    | zero => rfl
    | succ m => exact ih m a (Nat.lt_of_succ_lt_succ hn)

/-- Writing one position leaves every other read unchanged. -/
theorem getD_set_other {β : Type*} (d : β) :
    ∀ (l : List β) (i j : ℕ) (a : β), i ≠ j → (l.set i a).getD j d = l.getD j d := by
  intro l
  induction l with
  | nil => intro i j a h; rfl
  | cons x xs ih =>
    intro i j a h
    cases i with
    | zero =>
      cases j with
      | zero => exact absurd rfl h
      | succ j2 => rfl
    | succ i2 =>
      cases j with
      | zero => rfl
      | succ j2 => exact ih i2 j2 a (fun he => h (by rw [he]))

/-- Reading past the end gives the default. -/
theorem getD_oob {β : Type*} (d : β) :
    ∀ (l : List β) (n : ℕ), l.length ≤ n → l.getD n d = d := by
  intro l
  induction l with
  | nil => intro n h; rfl
  | cons x xs ih =>
    intro n h
    cases n with
    | zero => exact absurd h (Nat.not_succ_le_zero _)
    | succ m => exact ih m (Nat.le_of_succ_le_succ h)

/-- An in-range default read is a member. -/
theorem getD_mem {β : Type*} (d : β) :
    ∀ (l : List β) (n : ℕ), n < l.length → l.getD n d ∈ l := by
  intro l
  induction l with
  | nil => intro n hn; exact absurd hn (Nat.not_lt_zero _)
  | cons x xs ih =>
    intro n hn
    cases n with
    | zero => exact List.mem_cons_self x xs
    | succ m => exact List.mem_cons_of_mem x (ih m (Nat.lt_of_succ_lt_succ hn))

/-- Reads of a replicated list. -/
theorem getD_replicate {β : Type*} (d a : β) :
    ∀ (n i : ℕ), (List.replicate n a).getD i d = if i < n then a else d := by
  intro n
  induction n with
  | zero => intro i; rw [if_neg (Nat.not_lt_zero i)]; rfl
  | succ m ih =>
    intro i
    cases i with
    | zero => rw [if_pos (Nat.succ_pos m)]; rfl
    | succ j =>
      have hj := ih j
      by_cases h : j < m
      · rw [if_pos (Nat.succ_lt_succ h)]
        rw [if_pos h] at hj
        exact hj
      · rw [if_neg (fun h2 => h (Nat.lt_of_succ_lt_succ h2))]
        rw [if_neg h] at hj
        exact hj

/-- A write at another row does not change a read. -/
theorem getB_setB_ne_row (m : List (List Bool)) (r c r2 c2 : ℕ) (v : Bool) (h : r2 ≠ r) :
    getB (setB m r c v) r2 c2 = getB m r2 c2 := by
  unfold getB setB
  rw [getD_set_other ([] : List Bool) m r r2 ((m.getD r []).set c v) (fun he => h he.symm)]

/-- A write at another column of the same row does not change a read. -/
theorem getB_setB_ne_col (m : List (List Bool)) (r c c2 : ℕ) (v : Bool) (hr : r < m.length)
    (h : c2 ≠ c) : getB (setB m r c v) r c2 = getB m r c2 := by
  unfold getB setB
  rw [getD_set_self ([] : List Bool) m r ((m.getD r []).set c v) hr,
    getD_set_other false (m.getD r []) c c2 v (fun he => h he.symm)]

/-- An in-range write is read back. -/
theorem getB_setB_self (m : List (List Bool)) (r c : ℕ) (v : Bool) (hr : r < m.length)
    (hc : c < (m.getD r []).length) : getB (setB m r c v) r c = v := by
  unfold getB setB
  rw [getD_set_self ([] : List Bool) m r ((m.getD r []).set c v) hr,
    getD_set_self false (m.getD r []) c v hc]

/-- Every row of a well-shaped matrix has the column count. -/
theorem matShape_row_len (m : List (List Bool)) (nRows nCols : ℕ)
    (h : matShape m nRows nCols) (r : ℕ) (hr : r < nRows) : (m.getD r []).length = nCols := by
  have hrl : r < m.length := by rw [h.1]; exact hr
  exact h.2 (m.getD r []) (getD_mem [] m r hrl)

/-- `setB` keeps the shape. -/
theorem matShape_setB (m : List (List Bool)) (nRows nCols r c : ℕ) (v : Bool)
    (h : matShape m nRows nCols) (hr : r < nRows) : matShape (setB m r c v) nRows nCols := by
  constructor
  · show (m.set r ((m.getD r []).set c v)).length = nRows
    rw [List.length_set]
    exact h.1
  · intro row hrow
    rcases List.mem_or_eq_of_mem_set hrow with hmem | heq
    · exact h.2 row hmem
    · rw [heq, List.length_set]
      exact matShape_row_len m nRows nCols h r hr

/-- The all-false matrix is well shaped. -/
theorem matShape_falseM (nRows nCols : ℕ) : matShape (falseM nRows nCols) nRows nCols := by
  constructor
  · exact List.length_replicate nRows _
  · intro row hrow
    rw [List.eq_of_mem_replicate hrow]
    exact List.length_replicate nCols false

/-- The all-false matrix reads false. -/
theorem getB_falseM (nRows nCols r c : ℕ) : getB (falseM nRows nCols) r c = false := by
  unfold getB falseM
  rw [getD_replicate ([] : List Bool) (List.replicate nCols false) nRows r]
  by_cases hr : r < nRows
  · rw [if_pos hr, getD_replicate false false nCols c]
    by_cases hc : c < nCols
    · rw [if_pos hc]
    · rw [if_neg hc]
  · rw [if_neg hr]
    exact getD_oob false [] c (Nat.zero_le c)

/-- Reads below the matrix are false. -/
theorem getB_oob_row (m : List (List Bool)) (nRows nCols r c : ℕ)
    (h : matShape m nRows nCols) (hr : nRows ≤ r) : getB m r c = false := by
  unfold getB
  rw [getD_oob ([] : List Bool) m r (by rw [h.1]; exact hr)]
  exact getD_oob false [] c (Nat.zero_le c)

/-- Reads beyond the columns are false. -/
theorem getB_oob_col (m : List (List Bool)) (nRows nCols r c : ℕ)
    (h : matShape m nRows nCols) (hc : nCols ≤ c) : getB m r c = false := by
  unfold getB
  by_cases hr : r < nRows
  · rw [getD_oob false (m.getD r [])
      c (by rw [matShape_row_len m nRows nCols h r hr]; exact hc)]
  · rw [getD_oob ([] : List Bool) m r (by rw [h.1]; omega)]
    exact getD_oob false [] c (Nat.zero_le c)

/-- A found starred row is in range and starred. -/
theorem findStarRowInCol_some (S : List (List Bool)) (c nRows r : ℕ)
    (h : findStarRowInCol S c nRows = some r) : r < nRows ∧ getB S r c = true := by
  unfold findStarRowInCol at h
  refine ⟨List.mem_range.mp (List.mem_of_find?_eq_some h), ?_⟩
  have hp := List.find?_some h
  exact hp

/-- No starred row found means the scanned column is empty. -/
theorem findStarRowInCol_none (S : List (List Bool)) (c nRows : ℕ)
    (h : findStarRowInCol S c nRows = none) : ∀ r, r < nRows → getB S r c = false := by
  intro r hr
  unfold findStarRowInCol at h
  have hnp := List.find?_eq_none.mp h r (List.mem_range.mpr hr)
  cases hb : getB S r c with
  | false => rfl
  | true => exact absurd hb hnp

/-- A found starred column is in range and starred. -/
theorem findStarColInRow_some (S : List (List Bool)) (r nCols c : ℕ)
    (h : findStarColInRow S r nCols = some c) : c < nCols ∧ getB S r c = true := by
  unfold findStarColInRow at h
  refine ⟨List.mem_range.mp (List.mem_of_find?_eq_some h), ?_⟩
  have hp := List.find?_some h
  exact hp

/-- No starred column found means the scanned row is empty. -/
theorem findStarColInRow_none (S : List (List Bool)) (r nCols : ℕ)
    (h : findStarColInRow S r nCols = none) : ∀ c, c < nCols → getB S r c = false := by
  intro c hc
  unfold findStarColInRow at h
  have hnp := List.find?_eq_none.mp h c (List.mem_range.mpr hc)
  cases hb : getB S r c with
  | false => rfl
  | true => exact absurd hb hnp

/-- A found primed column is in range. -/
theorem findPrimeColInRow_some (prim : List (List Bool)) (r nCols pc : ℕ)
    (h : findPrimeColInRow prim r nCols = some pc) : pc < nCols := by
  unfold findPrimeColInRow at h
  exact List.mem_range.mp (List.mem_of_find?_eq_some h)

/-- A found zero row is in range. -/
theorem findZeroRow_some (st : MunkState α) (c nRows r : ℕ)
    (h : findZeroRow st c nRows = some r) : r < nRows := by
  unfold findZeroRow at h
  exact List.mem_range.mp (List.mem_of_find?_eq_some h)

/-- Once the step-4 walk enters a set of columns closed under its
deterministic step map, it can never exit, so it burns its fuel and
returns the original star matrix. -/
theorem augmentPath_cycle (S prim : List (List Bool)) (nRows nCols : ℕ) (C : List ℕ)
    (hC : ∀ c ∈ C, ∃ pc, gstep S prim nRows nCols c = some pc ∧ pc ∈ C) :
    ∀ (fuel col : ℕ), col ∈ C → ∀ N, augmentPath S prim nRows nCols fuel N col = S := by
  intro fuel
  induction fuel with
  | zero => intro col hcol N; rfl
  | succ f ih =>
    intro col hcol N
    obtain ⟨pc, hg, hpcC⟩ := hC col hcol
    unfold gstep at hg
    cases hsr : findStarRowInCol S col nRows with
    | none =>
      simp only [hsr] at hg
      exact Option.noConfusion hg
    | some r =>
      simp only [hsr] at hg
      simp only [augmentPath, hsr, hg]
      exact ih pc hpcC _

/-- The step-4 walk, started in any state satisfying the walk invariant,
produces a well-shaped matching — or bails out with the original star
matrix. -/
theorem augmentPath_matching (S prim : List (List Bool)) (nRows nCols : ℕ)
    (hS : isMatching S) (hSs : matShape S nRows nCols) :
    ∀ (fuel : ℕ) (N : List (List Bool)) (col : ℕ) (V : List ℕ),
      pathInv S prim N nRows nCols col V →
      (isMatching (augmentPath S prim nRows nCols fuel N col) ∧
        matShape (augmentPath S prim nRows nCols fuel N col) nRows nCols) ∨
      augmentPath S prim nRows nCols fuel N col = S := by
  intro fuel
  induction fuel with
  | zero => intro N col V hinv; exact Or.inr rfl
  | succ f ih =>
    intro N col V hinv
    obtain ⟨hQ1, hQ2, hQ3, hQ4, hQ5, hQ6, hQ7, hQ8, hQ9⟩ := hinv
    cases hsr : findStarRowInCol S col nRows with
    | none =>
      simp only [augmentPath, hsr]
      left
      refine ⟨⟨hQ5, ?_⟩, hQ3⟩
      intro c r1 r2 h1 h2
      by_cases hcc : c = col
      · subst hcc
        have hs1 : getB S r1 c = false := by
          by_cases hr1 : r1 < nRows
          · exact findStarRowInCol_none S c nRows hsr r1 hr1
          · exact getB_oob_row S nRows nCols r1 c hSs (le_of_not_lt hr1)
        have hs2 : getB S r2 c = false := by
          by_cases hr2 : r2 < nRows
          · exact findStarRowInCol_none S c nRows hsr r2 hr2
          · exact getB_oob_row S nRows nCols r2 c hSs (le_of_not_lt hr2)
        exact hQ7 r1 r2 h1 hs1 h2 hs2
      · exact hQ6 c hcc r1 r2 h1 h2
    | some r =>
      obtain ⟨hrlt, hrS⟩ := findStarRowInCol_some S col nRows r hsr
      cases hpc : findPrimeColInRow prim r nCols with
      | none =>
        right
        simp only [augmentPath, hsr, hpc]
      | some pc =>
        simp only [augmentPath, hsr, hpc]
        have hpcb := findPrimeColInRow_some prim r nCols pc hpc
        by_cases hfresh : pc ∈ V ++ [col]
        · right
          have hclosure : ∀ c ∈ V ++ [col], ∃ pc2,
              gstep S prim nRows nCols c = some pc2 ∧ pc2 ∈ V ++ [col] := by
            intro c hc
            rcases List.mem_append.mp hc with hcV | hccol
            · exact hQ1 c hcV
            · have hce : c = col := List.mem_singleton.mp hccol
              subst hce
              refine ⟨pc, ?_, hfresh⟩
              simp only [gstep, hsr]
              exact hpc
          exact augmentPath_cycle S prim nRows nCols (V ++ [col]) hclosure f pc hfresh _
        · have hpcc : pc ≠ col := by
            intro he
            exact hfresh (List.mem_append.mpr (Or.inr (by rw [he]; exact List.mem_singleton.mpr rfl)))
          have hpcV : pc ∉ V := fun hv => hfresh (List.mem_append.mpr (Or.inl hv))
          have hrN : getB N r col = true := hQ9 r col hrS hQ2
          have hshape1 : matShape (setB N r col false) nRows nCols :=
            matShape_setB N nRows nCols r col false hQ3 hrlt
          have hshape2 : matShape (setB (setB N r col false) r pc true) nRows nCols :=
            matShape_setB _ nRows nCols r pc true hshape1 hrlt
          have hchar : ∀ r2 c2, getB (setB (setB N r col false) r pc true) r2 c2 =
              if r2 = r then
                (if c2 = pc then true else if c2 = col then false else getB N r2 c2)
              else getB N r2 c2 := by
            intro r2 c2
            by_cases h2r : r2 = r
            · subst h2r
              rw [if_pos rfl]
              by_cases h2pc : c2 = pc
              · subst h2pc
                rw [if_pos rfl]
                exact getB_setB_self _ r2 c2 true (by rw [hshape1.1]; exact hrlt)
                  (by rw [matShape_row_len _ nRows nCols hshape1 r2 hrlt]; exact hpcb)
              · rw [if_neg h2pc,
                  getB_setB_ne_col _ r2 pc c2 true (by rw [hshape1.1]; exact hrlt) h2pc]
                by_cases h2col : c2 = col
                · subst h2col
                  rw [if_pos rfl]
                  exact getB_setB_self N r2 c2 false (by rw [hQ3.1]; exact hrlt)
                    (by rw [matShape_row_len N nRows nCols hQ3 r2 hrlt]; exact hQ4)
                · rw [if_neg h2col]
                  exact getB_setB_ne_col N r2 col c2 false (by rw [hQ3.1]; exact hrlt) h2col
            · rw [if_neg h2r, getB_setB_ne_row _ r pc r2 c2 true h2r,
                getB_setB_ne_row N r col r2 c2 false h2r]
          have hrowN2 : ∀ r2 c2, r2 = r →
              getB (setB (setB N r col false) r pc true) r2 c2 = true → c2 = pc := by
            intro r2 c2 h2r hg
            rw [hchar r2 c2, if_pos h2r] at hg
            by_cases h2pc : c2 = pc
            · exact h2pc
            · rw [if_neg h2pc] at hg
              by_cases h2col : c2 = col
              · rw [if_pos h2col] at hg
                exact Bool.noConfusion hg
              · rw [if_neg h2col] at hg
                subst h2r
                exact absurd (hQ5 r2 c2 col hg hrN) h2col
          have hQ5n : rowAtMostOne (setB (setB N r col false) r pc true) := by
            intro r2 c1 c2 h1 h2
            by_cases h2r : r2 = r
            · rw [hrowN2 r2 c1 h2r h1, hrowN2 r2 c2 h2r h2]
            · rw [hchar r2 c1, if_neg h2r] at h1
              rw [hchar r2 c2, if_neg h2r] at h2
              exact hQ5 r2 c1 c2 h1 h2
          have hQ6n : ∀ c, c ≠ pc → ∀ r1 r2,
              getB (setB (setB N r col false) r pc true) r1 c = true →
              getB (setB (setB N r col false) r pc true) r2 c = true → r1 = r2 := by
            intro c hc r1 r2 h1 h2
            rw [hchar r1 c] at h1
            rw [hchar r2 c] at h2
            by_cases hcol : c = col
            · subst hcol
              have hr1 : r1 ≠ r := by
                intro he
                rw [if_pos he, if_neg hc, if_pos rfl] at h1
                exact Bool.noConfusion h1
              have hr2 : r2 ≠ r := by
                intro he
                rw [if_pos he, if_neg hc, if_pos rfl] at h2
                exact Bool.noConfusion h2
              rw [if_neg hr1] at h1
              rw [if_neg hr2] at h2
              have hs1 : getB S r1 c = false := by
                cases hb : getB S r1 c with
                | false => rfl
                | true => exact absurd (hS.2 c r1 r hb hrS) hr1
              have hs2 : getB S r2 c = false := by
                cases hb : getB S r2 c with
                | false => rfl
                | true => exact absurd (hS.2 c r2 r hb hrS) hr2
              exact hQ7 r1 r2 h1 hs1 h2 hs2
            · have h1n : getB N r1 c = true := by
                by_cases he : r1 = r
                · rw [if_pos he, if_neg hc, if_neg hcol] at h1
                  exact h1
                · rw [if_neg he] at h1
                  exact h1
              have h2n : getB N r2 c = true := by
                by_cases he : r2 = r
                · rw [if_pos he, if_neg hc, if_neg hcol] at h2
                  exact h2
                · rw [if_neg he] at h2
                  exact h2
              exact hQ6 c hcol r1 r2 h1n h2n
          have hQ7n : ∀ r1 r2,
              getB (setB (setB N r col false) r pc true) r1 pc = true → getB S r1 pc = false →
              getB (setB (setB N r col false) r pc true) r2 pc = true → getB S r2 pc = false →
              r1 = r2 := by
            have key : ∀ r3, getB (setB (setB N r col false) r pc true) r3 pc = true →
                getB S r3 pc = false → r3 = r := by
              intro r3 h3 hs3
              by_cases he : r3 = r
              · exact he
              · rw [hchar r3 pc, if_neg he] at h3
                have := hQ8 pc hpcV hpcc r3 h3
                rw [hs3] at this
                exact Bool.noConfusion this
            intro r1 r2 h1 hs1 h2 hs2
            rw [key r1 h1 hs1, key r2 h2 hs2]
          have hQ8n : ∀ c, c ∉ V ++ [col] → c ≠ pc → ∀ r3,
              getB (setB (setB N r col false) r pc true) r3 c = true → getB S r3 c = true := by
            intro c hcm hcp r3 h3
            have hcV : c ∉ V := fun h => hcm (List.mem_append.mpr (Or.inl h))
            have hcc : c ≠ col := fun h =>
              hcm (List.mem_append.mpr (Or.inr (by rw [h]; exact List.mem_singleton.mpr rfl)))
            rw [hchar r3 c] at h3
            by_cases he : r3 = r
            · rw [if_pos he, if_neg hcp, if_neg hcc] at h3
              exact hQ8 c hcV hcc r3 h3
            · rw [if_neg he] at h3
              exact hQ8 c hcV hcc r3 h3
          have hQ9n : ∀ r3 c, getB S r3 c = true → c ∉ V ++ [col] →
              getB (setB (setB N r col false) r pc true) r3 c = true := by
            intro r3 c hs3 hcm
            have hcV : c ∉ V := fun h => hcm (List.mem_append.mpr (Or.inl h))
            have hcc : c ≠ col := fun h =>
              hcm (List.mem_append.mpr (Or.inr (by rw [h]; exact List.mem_singleton.mpr rfl)))
            have hN3 : getB N r3 c = true := hQ9 r3 c hs3 hcV
            rw [hchar r3 c]
            by_cases he : r3 = r
            · rw [if_pos he]
              by_cases hcp : c = pc
              · rw [if_pos hcp]
              · rw [if_neg hcp, if_neg hcc]
                exact hN3
            · rw [if_neg he]
              exact hN3
          have hQ1n : ∀ c ∈ V ++ [col], ∃ pc2,
              gstep S prim nRows nCols c = some pc2 ∧ pc2 ∈ (V ++ [col]) ++ [pc] := by
            intro c hc
            rcases List.mem_append.mp hc with hcV | hccol
            · obtain ⟨pc2, hg2, hm2⟩ := hQ1 c hcV
              exact ⟨pc2, hg2, List.mem_append.mpr (Or.inl hm2)⟩
            · have hce : c = col := List.mem_singleton.mp hccol
              subst hce
              refine ⟨pc, ?_, List.mem_append.mpr (Or.inr (List.mem_singleton.mpr rfl))⟩
              simp only [gstep, hsr]
              exact hpc
          exact ih (setB (setB N r col false) r pc true) pc (V ++ [col])
            ⟨hQ1n, hfresh, hshape2, hpcb, hQ5n, hQ6n, hQ7n, hQ8n, hQ9n⟩

/-- The row-starring fold keeps shape, a covered column per star, and a
star matrix that is a partial matching. -/
theorem starZerosRows_inv (m : List (List α)) (nRows nCols : ℕ) :
    ∀ (rs : List ℕ) (acc : List (List Bool) × List Bool),
      (∀ r ∈ rs, r < nRows) → rs.Nodup →
      (∀ r ∈ rs, ∀ c, getB acc.1 r c = false) →
      matShape acc.1 nRows nCols → acc.2.length = nCols →
      (∀ r c, getB acc.1 r c = true → getCov acc.2 c = true) →
      rowAtMostOne acc.1 → colAtMostOne acc.1 →
      matShape (rs.foldl (starZerosRowsStep m nCols) acc).1 nRows nCols ∧
        rowAtMostOne (rs.foldl (starZerosRowsStep m nCols) acc).1 ∧
        colAtMostOne (rs.foldl (starZerosRowsStep m nCols) acc).1 := by
  intro rs
  induction rs with
  | nil => intro acc hb hnd hemp hsh hlen hcov hrow hcol; exact ⟨hsh, hrow, hcol⟩
  | cons r0 rest ih =>
    intro acc hb hnd hemp hsh hlen hcov hrow hcol
    have hfold : (r0 :: rest).foldl (starZerosRowsStep m nCols) acc =
        rest.foldl (starZerosRowsStep m nCols) (starZerosRowsStep m nCols acc r0) := rfl
    rw [hfold]
    have hr0 : r0 < nRows := hb r0 (List.mem_cons_self r0 rest)
    have hr0rest : r0 ∉ rest := (List.nodup_cons.mp hnd).1
    have hndr : rest.Nodup := (List.nodup_cons.mp hnd).2
    have hbr : ∀ r ∈ rest, r < nRows := fun r hr => hb r (List.mem_cons_of_mem r0 hr)
    cases hf : (List.range nCols).find?
        (fun c => decide (|getM m r0 c| < dblEpsilon) && !(getCov acc.2 c)) with
    | none =>
      have hstep : starZerosRowsStep m nCols acc r0 = acc := by
        unfold starZerosRowsStep
        rw [hf]
      rw [hstep]
      exact ih acc hbr hndr (fun r hr c => hemp r (List.mem_cons_of_mem r0 hr) c)
        hsh hlen hcov hrow hcol
    | some c0 =>
      have hstep : starZerosRowsStep m nCols acc r0 =
          (setB acc.1 r0 c0 true, acc.2.set c0 true) := by
        unfold starZerosRowsStep
        rw [hf]
      rw [hstep]
      have hc0 : c0 < nCols := List.mem_range.mp (List.mem_of_find?_eq_some hf)
      have hpred := List.find?_some hf
      have huncov : getCov acc.2 c0 = false := by
        have h2 := ((Bool.and_eq_true _ _).mp hpred).2
        cases hcv : getCov acc.2 c0 with
        | false => rfl
        | true => rw [hcv] at h2; exact Bool.noConfusion h2
      have hr0emp : ∀ c, getB acc.1 r0 c = false := hemp r0 (List.mem_cons_self r0 rest)
      have hchar : ∀ r c, getB (setB acc.1 r0 c0 true) r c =
          if r = r0 ∧ c = c0 then true else getB acc.1 r c := by
        intro r c
        by_cases hr : r = r0
        · by_cases hc : c = c0
          · rw [if_pos ⟨hr, hc⟩, hr, hc]
            exact getB_setB_self acc.1 r0 c0 true (by rw [hsh.1]; exact hr0)
              (by rw [matShape_row_len acc.1 nRows nCols hsh r0 hr0]; exact hc0)
          · rw [if_neg (fun hh => hc hh.2), hr]
            exact getB_setB_ne_col acc.1 r0 c0 c true (by rw [hsh.1]; exact hr0) hc
        · rw [if_neg (fun hh => hr hh.1)]
          exact getB_setB_ne_row acc.1 r0 c0 r c true hr
      refine ih (setB acc.1 r0 c0 true, acc.2.set c0 true) hbr hndr ?_ ?_ ?_ ?_ ?_ ?_
      · intro r hr c
        rw [hchar r c]
        have hrne : r ≠ r0 := fun he => hr0rest (he ▸ hr)
        rw [if_neg (fun hh => hrne hh.1)]
        exact hemp r (List.mem_cons_of_mem r0 hr) c
      · exact matShape_setB acc.1 nRows nCols r0 c0 true hsh hr0
      · show (acc.2.set c0 true).length = nCols
        rw [List.length_set]
        exact hlen
      · intro r c hg
        rw [hchar r c] at hg
        show getCov (acc.2.set c0 true) c = true
        unfold getCov
        by_cases hcc : c = c0
        · rw [hcc, getD_set_self false acc.2 c0 true (by rw [hlen]; exact hc0)]
        · rw [getD_set_other false acc.2 c0 c true (fun hh => hcc hh.symm)]
          rw [if_neg (fun hh => hcc hh.2)] at hg
          exact hcov r c hg
      · intro r c1 c2 h1 h2
        rw [hchar r c1] at h1
        rw [hchar r c2] at h2
        by_cases hr : r = r0
        · have hc1 : c1 = c0 := by
            by_cases h : c1 = c0
            · exact h
            · rw [if_neg (fun hh => h hh.2), hr, hr0emp c1] at h1
              exact Bool.noConfusion h1
          have hc2 : c2 = c0 := by
            by_cases h : c2 = c0
            · exact h
            · rw [if_neg (fun hh => h hh.2), hr, hr0emp c2] at h2
              exact Bool.noConfusion h2
          rw [hc1, hc2]
        · rw [if_neg (fun hh => hr hh.1)] at h1
          rw [if_neg (fun hh => hr hh.1)] at h2
          exact hrow r c1 c2 h1 h2
      · intro c r1 r2 h1 h2
        rw [hchar r1 c] at h1
        rw [hchar r2 c] at h2
        by_cases hcc : c = c0
        · have hr1 : r1 = r0 := by
            by_cases h : r1 = r0
            · exact h
            · rw [if_neg (fun hh => h hh.1)] at h1
              have hcv := hcov r1 c h1
              rw [hcc, huncov] at hcv
              exact Bool.noConfusion hcv
          have hr2 : r2 = r0 := by
            by_cases h : r2 = r0
            · exact h
            · rw [if_neg (fun hh => h hh.1)] at h2
              have hcv := hcov r2 c h2
              rw [hcc, huncov] at hcv
              exact Bool.noConfusion hcv
          rw [hr1, hr2]
        · rw [if_neg (fun hh => hcc hh.2)] at h1
          rw [if_neg (fun hh => hcc hh.2)] at h2
          exact hcol c r1 r2 h1 h2

/-- The column-starring fold keeps shape, a covered row per star, and a
star matrix that is a partial matching. -/
theorem starZerosCols_inv (m : List (List α)) (nRows nCols : ℕ) :
    ∀ (cs : List ℕ) (acc : List (List Bool) × List Bool × List Bool),
      (∀ c ∈ cs, c < nCols) → cs.Nodup →
      (∀ c ∈ cs, ∀ r, getB acc.1 r c = false) →
      matShape acc.1 nRows nCols → acc.2.2.length = nRows →
      (∀ r c, getB acc.1 r c = true → getCov acc.2.2 r = true) →
      rowAtMostOne acc.1 → colAtMostOne acc.1 →
      matShape (cs.foldl (starZerosColsStep m nRows) acc).1 nRows nCols ∧
        rowAtMostOne (cs.foldl (starZerosColsStep m nRows) acc).1 ∧
        colAtMostOne (cs.foldl (starZerosColsStep m nRows) acc).1 := by
  intro cs
  induction cs with
  | nil => intro acc hb hnd hemp hsh hlen hcov hrow hcol; exact ⟨hsh, hrow, hcol⟩
  | cons c0 rest ih =>
    intro acc hb hnd hemp hsh hlen hcov hrow hcol
    have hfold : (c0 :: rest).foldl (starZerosColsStep m nRows) acc =
        rest.foldl (starZerosColsStep m nRows) (starZerosColsStep m nRows acc c0) := rfl
    rw [hfold]
    have hc0 : c0 < nCols := hb c0 (List.mem_cons_self c0 rest)
    have hc0rest : c0 ∉ rest := (List.nodup_cons.mp hnd).1
    have hndr : rest.Nodup := (List.nodup_cons.mp hnd).2
    have hbr : ∀ c ∈ rest, c < nCols := fun c hc => hb c (List.mem_cons_of_mem c0 hc)
    cases hf : (List.range nRows).find?
        (fun r => decide (|getM m r c0| < dblEpsilon) && !(getCov acc.2.2 r)) with
    | none =>
      have hstep : starZerosColsStep m nRows acc c0 = acc := by
        unfold starZerosColsStep
        rw [hf]
      rw [hstep]
      exact ih acc hbr hndr (fun c hc r => hemp c (List.mem_cons_of_mem c0 hc) r)
        hsh hlen hcov hrow hcol
    | some r0 =>
      have hstep : starZerosColsStep m nRows acc c0 =
          (setB acc.1 r0 c0 true, acc.2.1.set c0 true, acc.2.2.set r0 true) := by
        unfold starZerosColsStep
        rw [hf]
      rw [hstep]
      have hr0 : r0 < nRows := List.mem_range.mp (List.mem_of_find?_eq_some hf)
      have hpred := List.find?_some hf
      have huncov : getCov acc.2.2 r0 = false := by
        have h2 := ((Bool.and_eq_true _ _).mp hpred).2
        cases hcv : getCov acc.2.2 r0 with
        | false => rfl
        | true => rw [hcv] at h2; exact Bool.noConfusion h2
      have hc0emp : ∀ r, getB acc.1 r c0 = false := hemp c0 (List.mem_cons_self c0 rest)
      have hr0emp : ∀ c, getB acc.1 r0 c = false := by
        intro c
        cases hg : getB acc.1 r0 c with
        | false => rfl
        | true =>
          have hcv := hcov r0 c hg
          rw [huncov] at hcv
          exact Bool.noConfusion hcv
      have hchar : ∀ r c, getB (setB acc.1 r0 c0 true) r c =
          if r = r0 ∧ c = c0 then true else getB acc.1 r c := by
        intro r c
        by_cases hr : r = r0
        · by_cases hc : c = c0
          · rw [if_pos ⟨hr, hc⟩, hr, hc]
            exact getB_setB_self acc.1 r0 c0 true (by rw [hsh.1]; exact hr0)
              (by rw [matShape_row_len acc.1 nRows nCols hsh r0 hr0]; exact hc0)
          · rw [if_neg (fun hh => hc hh.2), hr]
            exact getB_setB_ne_col acc.1 r0 c0 c true (by rw [hsh.1]; exact hr0) hc
        · rw [if_neg (fun hh => hr hh.1)]
          exact getB_setB_ne_row acc.1 r0 c0 r c true hr
      refine ih (setB acc.1 r0 c0 true, acc.2.1.set c0 true, acc.2.2.set r0 true)
        hbr hndr ?_ ?_ ?_ ?_ ?_ ?_
      · intro c hc r
        rw [hchar r c]
        have hcne : c ≠ c0 := fun he => hc0rest (he ▸ hc)
        rw [if_neg (fun hh => hcne hh.2)]
        exact hemp c (List.mem_cons_of_mem c0 hc) r
      · exact matShape_setB acc.1 nRows nCols r0 c0 true hsh hr0
      · show (acc.2.2.set r0 true).length = nRows
        rw [List.length_set]
        exact hlen
      · intro r c hg
        rw [hchar r c] at hg
        show getCov (acc.2.2.set r0 true) r = true
        unfold getCov
        by_cases hrr : r = r0
        · rw [hrr, getD_set_self false acc.2.2 r0 true (by rw [hlen]; exact hr0)]
        · rw [getD_set_other false acc.2.2 r0 r true (fun hh => hrr hh.symm)]
          rw [if_neg (fun hh => hrr hh.1)] at hg
          exact hcov r c hg
      · intro r c1 c2 h1 h2
        rw [hchar r c1] at h1
        rw [hchar r c2] at h2
        by_cases hr : r = r0
        · have hc1 : c1 = c0 := by
            by_cases h : c1 = c0
            · exact h
            · rw [if_neg (fun hh => h hh.2), hr, hr0emp c1] at h1
              exact Bool.noConfusion h1
          have hc2 : c2 = c0 := by
            by_cases h : c2 = c0
            · exact h
            · rw [if_neg (fun hh => h hh.2), hr, hr0emp c2] at h2
              exact Bool.noConfusion h2
          rw [hc1, hc2]
        · rw [if_neg (fun hh => hr hh.1)] at h1
          rw [if_neg (fun hh => hr hh.1)] at h2
          exact hrow r c1 c2 h1 h2
      · intro c r1 r2 h1 h2
        rw [hchar r1 c] at h1
        rw [hchar r2 c] at h2
        by_cases hcc : c = c0
        · have hr1 : r1 = r0 := by
            by_cases h : r1 = r0
            · exact h
            · rw [if_neg (fun hh => h hh.1), hcc, hc0emp r1] at h1
              exact Bool.noConfusion h1
          have hr2 : r2 = r0 := by
            by_cases h : r2 = r0
            · exact h
            · rw [if_neg (fun hh => h hh.1), hcc, hc0emp r2] at h2
              exact Bool.noConfusion h2
          rw [hr1, hr2]
        · rw [if_neg (fun hh => hcc hh.2)] at h1
          rw [if_neg (fun hh => hcc hh.2)] at h2
          exact hcol c r1 r2 h1 h2

/-- The preliminary row starring produces a well-shaped partial
matching. -/
theorem starZerosRows_matching (m : List (List α)) (nRows nCols : ℕ) :
    matShape (starZerosRows m nRows nCols).1 nRows nCols ∧
      rowAtMostOne (starZerosRows m nRows nCols).1 ∧
      colAtMostOne (starZerosRows m nRows nCols).1 := by
  have hfM : ∀ r c, ¬ getB (falseM nRows nCols) r c = true := by
    intro r c h
    rw [getB_falseM] at h
    exact Bool.noConfusion h
  exact starZerosRows_inv m nRows nCols (List.range nRows)
    (falseM nRows nCols, List.replicate nCols false)
    (fun r hr => List.mem_range.mp hr) (List.nodup_range nRows)
    (fun r _ c => getB_falseM nRows nCols r c)
    (matShape_falseM nRows nCols) (List.length_replicate nCols false)
    (fun r c hg => absurd hg (hfM r c))
    (fun r c1 c2 h1 _ => absurd h1 (hfM r c1))
    (fun c r1 r2 h1 _ => absurd h1 (hfM r1 c))

/-- The preliminary column starring produces a well-shaped partial
matching. -/
theorem starZerosCols_matching (m : List (List α)) (nRows nCols : ℕ) :
    matShape (starZerosCols m nRows nCols).1 nRows nCols ∧
      rowAtMostOne (starZerosCols m nRows nCols).1 ∧
      colAtMostOne (starZerosCols m nRows nCols).1 := by
  have hfM : ∀ r c, ¬ getB (falseM nRows nCols) r c = true := by
    intro r c h
    rw [getB_falseM] at h
    exact Bool.noConfusion h
  exact starZerosCols_inv m nRows nCols (List.range nCols)
    (falseM nRows nCols, List.replicate nCols false, List.replicate nRows false)
    (fun c hc => List.mem_range.mp hc) (List.nodup_range nCols)
    (fun c _ r => getB_falseM nRows nCols r c)
    (matShape_falseM nRows nCols) (List.length_replicate nRows false)
    (fun r c hg => absurd hg (hfM r c))
    (fun r c1 c2 h1 _ => absurd h1 (hfM r c1))
    (fun c r1 r2 h1 _ => absurd h1 (hfM r1 c))

/-- The step-3 column sweep never changes the star matrix, and a found
primed zero is an in-range cell whose row holds no star. -/
theorem sweepStep3_star (nRows nCols : ℕ) :
    ∀ (cs : List ℕ) (st : MunkState α) (changed : Bool),
      (∀ c ∈ cs, c < nCols) →
      (∀ st1 ch1, sweepStep3 nRows nCols cs st changed = .done st1 ch1 → st1.star = st.star) ∧
      (∀ st1 r c, sweepStep3 nRows nCols cs st changed = .found st1 r c →
        st1.star = st.star ∧ r < nRows ∧ c < nCols ∧
          findStarColInRow st1.star r nCols = none) := by
  intro cs
  induction cs with
  | nil =>
    intro st changed hb
    constructor
    · intro st1 ch1 h
      cases h
      rfl
    · intro st1 r c h
      exact SweepRes.noConfusion h
  | cons c1 cs2 ih =>
    intro st changed hb
    have hbr : ∀ c ∈ cs2, c < nCols := fun c hc => hb c (List.mem_cons_of_mem c1 hc)
    by_cases hcov : getCov st.covCols c1 = true
    · have hstep : sweepStep3 nRows nCols (c1 :: cs2) st changed =
          sweepStep3 nRows nCols cs2 st changed := by
        simp only [sweepStep3]
        rw [if_pos hcov]
      rw [hstep]
      exact ih st changed hbr
    · cases hfz : findZeroRow st c1 nRows with
      | none =>
        have hstep : sweepStep3 nRows nCols (c1 :: cs2) st changed =
            sweepStep3 nRows nCols cs2 st changed := by
          simp only [sweepStep3, hfz]
          rw [if_neg hcov]
        rw [hstep]
        exact ih st changed hbr
      | some r1 =>
        have hr1 : r1 < nRows := findZeroRow_some st c1 nRows r1 hfz
        cases hfs : findStarColInRow st.star r1 nCols with
        | some sc =>
          have hstep : sweepStep3 nRows nCols (c1 :: cs2) st changed =
              sweepStep3 nRows nCols cs2
                { st with
                    prim := setB st.prim r1 c1 true,
                    covRows := st.covRows.set r1 true,
                    covCols := st.covCols.set sc false }
                true := by
            simp only [sweepStep3, hfz, hfs]
            rw [if_neg hcov]
          rw [hstep]
          constructor
          · intro st1 ch1 h
            have he := (ih { st with
                prim := setB st.prim r1 c1 true,
                covRows := st.covRows.set r1 true,
                covCols := st.covCols.set sc false } true hbr).1 st1 ch1 h
            exact he
          · intro st1 r c h
            obtain ⟨he, h2, h3, h4⟩ := (ih { st with
                prim := setB st.prim r1 c1 true,
                covRows := st.covRows.set r1 true,
                covCols := st.covCols.set sc false } true hbr).2 st1 r c h
            exact ⟨he, h2, h3, h4⟩
        | none =>
          have hstep : sweepStep3 nRows nCols (c1 :: cs2) st changed =
              .found { st with prim := setB st.prim r1 c1 true } r1 c1 := by
            simp only [sweepStep3, hfz, hfs]
            rw [if_neg hcov]
          rw [hstep]
          constructor
          · intro st1 ch1 h
            exact SweepRes.noConfusion h
          · intro st1 r c h
            injection h with hA hB hC
            rw [← hA, ← hB, ← hC]
            exact ⟨rfl, hr1, hb c1 (List.mem_cons_self c1 cs2), hfs⟩

/-- The step-3 loop never changes the star matrix, and when it hands a
cell to step 4 that cell is in range and its row holds no star. -/
theorem step3Loop_star (nRows nCols : ℕ) :
    ∀ (fuel : ℕ) (st : MunkState α),
      (∀ st1, step3Loop nRows nCols fuel st = .toStep5 st1 → st1.star = st.star) ∧
      (∀ st1 r c, step3Loop nRows nCols fuel st = .toStep4 st1 r c →
        st1.star = st.star ∧ r < nRows ∧ c < nCols ∧
          findStarColInRow st1.star r nCols = none) := by
  intro fuel
  induction fuel with
  | zero =>
    intro st
    constructor
    · intro st1 h
      cases h
      rfl
    · intro st1 r c h
      exact Step3Out.noConfusion h
  | succ f ih =>
    intro st
    have hsw := sweepStep3_star nRows nCols (List.range nCols) st false
      (fun c hc => List.mem_range.mp hc)
    cases hres : sweepStep3 nRows nCols (List.range nCols) st false with
    | found st1 r c =>
      have hstep : step3Loop nRows nCols (f + 1) st = .toStep4 st1 r c := by
        simp only [step3Loop, hres]
      constructor
      · intro st2 h
        rw [hstep] at h
        exact Step3Out.noConfusion h
      · intro st2 r2 c2 h
        rw [hstep] at h
        injection h with hA hB hC
        rw [← hA, ← hB, ← hC]
        exact hsw.2 st1 r c hres
    | done st1 ch =>
      cases ch with
      | true =>
        have hstep : step3Loop nRows nCols (f + 1) st =
            step3Loop nRows nCols f st1 := by
          simp only [step3Loop, hres]
        have he := hsw.1 st1 true hres
        constructor
        · intro st2 h
          rw [hstep] at h
          rw [(ih st1).1 st2 h, he]
        · intro st2 r2 c2 h
          rw [hstep] at h
          obtain ⟨h1, h2, h3, h4⟩ := (ih st1).2 st2 r2 c2 h
          exact ⟨by rw [h1, he], h2, h3, h4⟩
      | false =>
        have hstep : step3Loop nRows nCols (f + 1) st = .toStep5 st1 := by
          simp only [step3Loop, hres]
        have he := hsw.1 st1 false hres
        constructor
        · intro st2 h
          rw [hstep] at h
          injection h with hA
          subst hA
          exact he
        · intro st2 r2 c2 h
          rw [hstep] at h
          exact Step3Out.noConfusion h

/-- Step 4 keeps the star matrix a well-shaped matching. -/
theorem step4Apply_matching (st : MunkState α) (r c nRows nCols : ℕ)
    (hm : isMatching st.star) (hs : matShape st.star nRows nCols)
    (hr : r < nRows) (hc : c < nCols)
    (hrow : findStarColInRow st.star r nCols = none) :
    isMatching (step4Apply st r c nRows nCols).star ∧
      matShape (step4Apply st r c nRows nCols).star nRows nCols := by
  have hrowEmpty : ∀ c2, getB st.star r c2 = false := by
    intro c2
    by_cases h2 : c2 < nCols
    · exact findStarColInRow_none st.star r nCols hrow c2 h2
    · exact getB_oob_col st.star nRows nCols r c2 hs (le_of_not_lt h2)
  have hchar0 : ∀ r2 c2, getB (setB st.star r c true) r2 c2 =
      if r2 = r ∧ c2 = c then true else getB st.star r2 c2 := by
    intro r2 c2
    by_cases h2r : r2 = r
    · by_cases h2c : c2 = c
      · rw [if_pos ⟨h2r, h2c⟩, h2r, h2c]
        exact getB_setB_self st.star r c true (by rw [hs.1]; exact hr)
          (by rw [matShape_row_len st.star nRows nCols hs r hr]; exact hc)
      · rw [if_neg (fun hh => h2c hh.2), h2r]
        exact getB_setB_ne_col st.star r c c2 true (by rw [hs.1]; exact hr) h2c
    · rw [if_neg (fun hh => h2r hh.1)]
      exact getB_setB_ne_row st.star r c r2 c2 true h2r
  have hinv : pathInv st.star st.prim (setB st.star r c true) nRows nCols c [] := by
    refine ⟨?_, List.not_mem_nil c, matShape_setB st.star nRows nCols r c true hs hr,
      hc, ?_, ?_, ?_, ?_, ?_⟩
    · intro c2 hc2
      exact absurd hc2 (List.not_mem_nil c2)
    · intro r2 c1 c2 h1 h2
      rw [hchar0 r2 c1] at h1
      rw [hchar0 r2 c2] at h2
      by_cases h2r : r2 = r
      · have e1 : c1 = c := by
          by_cases h : c1 = c
          · exact h
          · rw [if_neg (fun hh => h hh.2), h2r, hrowEmpty c1] at h1
            exact Bool.noConfusion h1
        have e2 : c2 = c := by
          by_cases h : c2 = c
          · exact h
          · rw [if_neg (fun hh => h hh.2), h2r, hrowEmpty c2] at h2
            exact Bool.noConfusion h2
        rw [e1, e2]
      · rw [if_neg (fun hh => h2r hh.1)] at h1
        rw [if_neg (fun hh => h2r hh.1)] at h2
        exact hm.1 r2 c1 c2 h1 h2
    · intro c2 hc2 r1 r2 h1 h2
      rw [hchar0 r1 c2, if_neg (fun hh => hc2 hh.2)] at h1
      rw [hchar0 r2 c2, if_neg (fun hh => hc2 hh.2)] at h2
      exact hm.2 c2 r1 r2 h1 h2
    · intro r1 r2 h1 hs1 h2 hs2
      rw [hchar0 r1 c] at h1
      rw [hchar0 r2 c] at h2
      have e1 : r1 = r := by
        by_cases h : r1 = r
        · exact h
        · rw [if_neg (fun hh => h hh.1), hs1] at h1
          exact Bool.noConfusion h1
      have e2 : r2 = r := by
        by_cases h : r2 = r
        · exact h
        · rw [if_neg (fun hh => h hh.1), hs2] at h2
          exact Bool.noConfusion h2
      rw [e1, e2]
    · intro c2 _ hc2 r2 h2
      rw [hchar0 r2 c2, if_neg (fun hh => hc2 hh.2)] at h2
      exact h2
    · intro r2 c2 hs2 _
      rw [hchar0 r2 c2]
      by_cases hh : r2 = r ∧ c2 = c
      · rw [if_pos hh]
      · rw [if_neg hh]
        exact hs2
  have hres := augmentPath_matching st.star st.prim nRows nCols hm hs
    (nRows + nCols + 2) (setB st.star r c true) c [] hinv
  have hgoal : (step4Apply st r c nRows nCols).star =
      augmentPath st.star st.prim nRows nCols (nRows + nCols + 2)
        (setB st.star r c true) c := rfl
  rcases hres with ⟨h1, h2⟩ | h
  · rw [hgoal]
    exact ⟨h1, h2⟩
  · rw [hgoal, h]
    exact ⟨hm, hs⟩

/-- The main loop keeps the star matrix a well-shaped matching. -/
theorem munkresLoop_matching (nRows nCols minDim : ℕ) :
    ∀ (fuel : ℕ) (phase : Bool) (st : MunkState α),
      isMatching st.star → matShape st.star nRows nCols →
      isMatching (munkresLoop nRows nCols minDim fuel phase st).star ∧
        matShape (munkresLoop nRows nCols minDim fuel phase st).star nRows nCols := by
  intro fuel
  induction fuel with
  | zero => intro phase st hm hs; exact ⟨hm, hs⟩
  | succ f ih =>
    intro phase st hm hs
    cases phase with
    | true =>
      by_cases hcnt : st.covCols.count true = minDim
      · have hstep : munkresLoop nRows nCols minDim (f + 1) true st = st := by
          simp only [munkresLoop]
          rw [if_pos hcnt]
        rw [hstep]
        exact ⟨hm, hs⟩
      · have hstep : munkresLoop nRows nCols minDim (f + 1) true st =
            munkresLoop nRows nCols minDim f false st := by
          simp only [munkresLoop]
          rw [if_neg hcnt]
        rw [hstep]
        exact ih false st hm hs
    | false =>
      cases h3 : step3Loop nRows nCols (nRows + 1) st with
      | toStep4 st1 r c =>
        obtain ⟨hstar, hr, hc, hrw⟩ :=
          (step3Loop_star nRows nCols (nRows + 1) st).2 st1 r c h3
        have hstep : munkresLoop nRows nCols minDim (f + 1) false st =
            munkresLoop nRows nCols minDim f true
              (coverStarCols (step4Apply st1 r c nRows nCols) nRows nCols) := by
          simp only [munkresLoop, h3]
        rw [hstep]
        obtain ⟨h4m, h4s⟩ := step4Apply_matching st1 r c nRows nCols
          (by rw [hstar]; exact hm) (by rw [hstar]; exact hs) hr hc hrw
        exact ih true _ h4m h4s
      | toStep5 st1 =>
        have hstar := (step3Loop_star nRows nCols (nRows + 1) st).1 st1 h3
        have hstep : munkresLoop nRows nCols minDim (f + 1) false st =
            munkresLoop nRows nCols minDim f false (step5Apply st1 nRows nCols) := by
          simp only [munkresLoop, h3]
        rw [hstep]
        refine ih false _ ?_ ?_
        · have h5 : (step5Apply st1 nRows nCols).star = st1.star := rfl
          rw [h5, hstar]
          exact hm
        · have h5 : (step5Apply st1 nRows nCols).star = st1.star := rfl
          rw [h5, hstar]
          exact hs

/-- The whole Munkres run returns a well-shaped star matching. -/
theorem assignmentOptimal_matching (mat : List (List α)) (nRows nCols : ℕ) :
    isMatching (assignmentOptimal mat nRows nCols).star ∧
      matShape (assignmentOptimal mat nRows nCols).star nRows nCols := by
  unfold assignmentOptimal
  by_cases hdim : nRows ≤ nCols
  · rw [if_pos hdim]
    obtain ⟨hsh, hrow, hcol⟩ := starZerosRows_matching (rowReduce mat) nRows nCols
    exact munkresLoop_matching nRows nCols (min nRows nCols) (munkresFuel nRows nCols) true
      _ ⟨hrow, hcol⟩ hsh
  · rw [if_neg hdim]
    obtain ⟨hsh, hrow, hcol⟩ := starZerosCols_matching (colReduce mat nCols) nRows nCols
    exact munkresLoop_matching nRows nCols (min nRows nCols) (munkresFuel nRows nCols) true
      _ ⟨hrow, hcol⟩ hsh

/-- Reading the assignment vector at an in-range row. -/
theorem getD_buildAssign (star : List (List Bool)) (nRows nCols : ℕ) :
    ∀ r, r < nRows → (buildAssignmentVector star nRows nCols).getD r (-1) =
      match findStarColInRow star r nCols with
      | some c => (c : ℤ)
      | none => -1 := by
  intro r hr
  unfold buildAssignmentVector
  rw [List.getD_eq_getElem?_getD, List.getElem?_map, List.getElem?_range hr]
  rfl

set_option maxRecDepth 100000 in
unseal Rat.mul Rat.inv Rat.add Rat.sub in
/-- C3 counterexample: the source's `DBL_EPSILON` zero test already
treats the `2^-60` diagonal as zeros, so it stars the diagonal
assignment `[0, 1]` whose cost on the original matrix, `2 * 2^-60`,
exceeds the cost `0` of the valid assignment `[1, 0]`: the returned
assignment does not minimize the total selected cost. -/
theorem hungarian_suboptimal_cex :
    (hungarianSolve ([[1 / 2 ^ 60, 0], [0, 1 / 2 ^ 60]] : List (List ℚ))).1 = [0, 1] ∧
      totalCost ([[1 / 2 ^ 60, 0], [0, 1 / 2 ^ 60]] : List (List ℚ)) [1, 0] <
        totalCost ([[1 / 2 ^ 60, 0], [0, 1 / 2 ^ 60]] : List (List ℚ)) [0, 1] := by
  decide

/-- C3 (amended): on every cost matrix, `HungarianAlgorithm::solve`
returns an assignment vector of length `M` whose entries lie in
`{0..N-1} ∪ {-1}`, assigns no column to more than one row, and returns
the empty assignment on the empty input (the cost-minimality clause is
dropped: the `DBL_EPSILON` zero threshold makes tiny positive entries
indistinguishable from zeros). -/
theorem hungarian_assignment_shape (mat : List (List α)) :
    (hungarianSolve mat).1.length = mat.length ∧
      (∀ e ∈ (hungarianSolve mat).1, e = -1 ∨ (0 ≤ e ∧ e < (mat.headI.length : ℤ))) ∧
      (∀ r1 r2 : ℕ, r1 < mat.length → r2 < mat.length →
        0 ≤ (hungarianSolve mat).1.getD r1 (-1) →
        (hungarianSolve mat).1.getD r1 (-1) = (hungarianSolve mat).1.getD r2 (-1) →
        r1 = r2) ∧
      (mat = [] → (hungarianSolve mat).1 = []) := by
  by_cases h0 : mat.length = 0
  · have hmat : mat = [] := List.length_eq_zero.mp h0
    subst hmat
    refine ⟨rfl, ?_, ?_, fun _ => rfl⟩
    · intro e he
      exact absurd he (List.not_mem_nil e)
    · intro r1 r2 h1 h2 _ _
      exact absurd h1 (Nat.not_lt_zero r1)
  · by_cases hc0 : mat.headI.length = 0
    · have hsolve : hungarianSolve mat = (List.replicate mat.length (-1), 0) := by
        unfold hungarianSolve
        rw [if_neg h0]
        dsimp only
        rw [if_pos hc0]
      rw [hsolve]
      refine ⟨List.length_replicate _ _, ?_, ?_, ?_⟩
      · intro e he
        exact Or.inl (List.eq_of_mem_replicate he)
      · intro r1 r2 hr1 hr2 hge _
        have hgd : (List.replicate mat.length (-1 : ℤ)).getD r1 (-1) = -1 := by
          rw [getD_replicate (-1 : ℤ) (-1) mat.length r1, if_pos hr1]
        have hge2 : (0 : ℤ) ≤ (List.replicate mat.length (-1 : ℤ)).getD r1 (-1) := hge
        rw [hgd] at hge2
        exact absurd hge2 (by decide)
      · intro hmat
        exact absurd (by rw [hmat]; rfl : mat.length = 0) h0
    · have hsolve1 : (hungarianSolve mat).1 =
          buildAssignmentVector (assignmentOptimal mat mat.length mat.headI.length).star
            mat.length mat.headI.length := by
        unfold hungarianSolve
        rw [if_neg h0]
        dsimp only
        rw [if_neg hc0]
      obtain ⟨hm, hs⟩ := assignmentOptimal_matching mat mat.length mat.headI.length
      rw [hsolve1]
      refine ⟨?_, ?_, ?_, fun hmat => absurd (by rw [hmat]; rfl : mat.length = 0) h0⟩
      · show ((List.range mat.length).map _).length = mat.length
        rw [List.length_map, List.length_range]
      · intro e he
        unfold buildAssignmentVector at he
        obtain ⟨r, hrmem, hfr⟩ := List.mem_map.mp he
        cases hfs : findStarColInRow (assignmentOptimal mat mat.length mat.headI.length).star
            r mat.headI.length with
        | none =>
          simp only [hfs] at hfr
          exact Or.inl hfr.symm
        | some c =>
          simp only [hfs] at hfr
          obtain ⟨hcb, _⟩ := findStarColInRow_some _ r mat.headI.length c hfs
          refine Or.inr ⟨?_, ?_⟩
          · rw [← hfr]
            exact Int.natCast_nonneg c
          · rw [← hfr]
            exact_mod_cast hcb
      · intro r1 r2 hr1 hr2 hge heq
        rw [getD_buildAssign _ mat.length mat.headI.length r1 hr1] at hge heq
        rw [getD_buildAssign _ mat.length mat.headI.length r2 hr2] at heq
        cases hf1 : findStarColInRow (assignmentOptimal mat mat.length mat.headI.length).star
            r1 mat.headI.length with
        | none =>
          simp only [hf1] at hge
          exact absurd hge (by decide)
        | some c1 =>
          cases hf2 : findStarColInRow (assignmentOptimal mat mat.length mat.headI.length).star
              r2 mat.headI.length with
          | none =>
            simp only [hf1, hf2] at heq
            have hcn := Int.natCast_nonneg c1
            rw [heq] at hcn
            exact absurd hcn (by decide)
          | some c2 =>
            simp only [hf1, hf2] at heq
            have hcc : c1 = c2 := Nat.cast_inj.mp heq
            subst hcc
            obtain ⟨_, hb1⟩ := findStarColInRow_some _ r1 mat.headI.length c1 hf1
            obtain ⟨_, hb2⟩ := findStarColInRow_some _ r2 mat.headI.length c1 hf2
            exact hm.2 c1 r1 r2 hb1 hb2

set_option maxRecDepth 100000 in
unseal Rat.mul Rat.inv Rat.add Rat.sub in
/-- C3 witness: the structural contract applied on a concrete 2x2
matrix, with its column-injectivity instantiated at equal indices. -/
theorem hungarian_assignment_shape_witness :
    (0 : ℤ) ≤ (hungarianSolve ([[0, 1], [1, 0]] : List (List ℚ))).1.getD 0 (-1) ∧
      (0 : ℕ) = 0 :=
  ⟨by decide, (hungarian_assignment_shape ([[0, 1], [1, 0]] : List (List ℚ))).2.2.1 0 0
    (by decide) (by decide) (by decide) rfl⟩

end ClaimC3

end FaceBlur
